import Mathlib

/-!
# bitcask-go-lite: record codec and log-structured store

A shallow embedding of `kv_format.go` and `bitcask_store.go`.

Conventions of the embedding

* A Go `[]byte` and a Go `string` are both a `List Byte`; every slice the
  program builds comes from `make([]byte, n)`, so its capacity is its length.
* `uint32` values are natural numbers reduced modulo `2^32` wherever the
  program computes in `uint32`; `uint` is 64 bits wide and the sums the
  program forms in it stay below `2^34`, so they are plain natural numbers.
  File offsets (`int64`) are natural numbers: they never exceed the length
  of the log file.
* A run-time panic of a pure function is the result `none`.
* The log file is the list of its bytes.  The clock reading of `Set` and the
  number of bytes the operating system accepts on a write are explicit
  arguments, as is the outcome of closing the file.
-/

namespace Bitcask

/-! ## Bytes, slices and the built-ins the program uses -/

/-- A Go `byte`. -/
abbrev Byte := Fin 256

/-- Go's conversion `byte(v)` of an unsigned integer: its low eight bits. -/
def byte (v : Nat) : Byte := ⟨v % 256, Nat.mod_lt v (by decide)⟩

/-- Go's conversion `uint32(n)` of an unsigned integer, and the wrap-around of
`uint32` arithmetic. -/
def uint32 (n : Nat) : Nat := n % 4294967296

/-- Go's conversion `uint32(t)` of a signed 64-bit integer (two's complement
truncation). -/
def uint32OfInt (t : Int) : Nat := (t % 4294967296).toNat

/-- The built-in `make([]byte, n)`: `n` zero bytes. -/
def make (n : Nat) : List Byte := List.replicate n 0

/-- The built-in `copy(dst, src)`: the content of `dst` afterwards.  It copies
`min(len(dst), len(src))` bytes. -/
def copy (dst src : List Byte) : List Byte :=
  let n := min dst.length src.length
  src.take n ++ dst.drop n

/-- The slice expression `s[lo:hi]`; `none` when Go panics with slice bounds
out of range. -/
def slice (s : List Byte) (lo hi : Nat) : Option (List Byte) :=
  if lo ≤ hi ∧ hi ≤ s.length then some ((s.drop lo).take (hi - lo)) else none

/-- The slice expression `s[lo:]`. -/
def sliceFrom (s : List Byte) (lo : Nat) : Option (List Byte) :=
  if lo ≤ s.length then some (s.drop lo) else none

/-- The statement `copy(buf[lo:hi], src)`: the content of `buf` afterwards, or
`none` when the slice expression panics. -/
def copyInto (buf : List Byte) (lo hi : Nat) (src : List Byte) : Option (List Byte) :=
  match slice buf lo hi with
  | none => none
  | some window => some (buf.take lo ++ copy window src ++ buf.drop hi)

/-- Go's `binary.BigEndian.Uint32(b)`; it panics when `len(b) < 4`. -/
def Uint32 (b : List Byte) : Option Nat :=
  match b with
  | b0 :: b1 :: b2 :: b3 :: _ =>
    some (b3.val ||| b2.val <<< 8 ||| b1.val <<< 16 ||| b0.val <<< 24)
  | _ => none

/-- Go's `binary.BigEndian.PutUint32(buf[off:], v)` on a buffer with at least
`off + 4` bytes: the content of `buf` afterwards. -/
def PutUint32 (buf : List Byte) (off : Nat) (v : Nat) : List Byte :=
  (((buf.set off (byte (v >>> 24))).set (off + 1) (byte (v >>> 16))).set
    (off + 2) (byte (v >>> 8))).set (off + 3) (byte v)

/-! ## kv_format.go -/

/-- The constant `headerSize`. -/
def headerSize : Nat := 12

/-- The struct `KeyEntry`. -/
structure KeyEntry where
  entrySize : Nat
  entryPos : Nat
  timestamp : Nat
deriving DecidableEq, Repr

/-- The constructor function `NewKeyEntry`. -/
def NewKeyEntry (entrySize : Nat) (entryPos : Nat) (timestamp : Nat) : KeyEntry :=
  { entrySize := entrySize, entryPos := entryPos, timestamp := timestamp }

/-- The function `encodeHeader`. -/
def encodeHeader (timestamp keySize valueSize : Nat) : List Byte :=
  let header := make headerSize
  let header := PutUint32 header 0 timestamp
  let header := PutUint32 header (headerSize / 3) keySize
  let header := PutUint32 header ((headerSize / 3) * 2) valueSize
  header

/-- The function `decodeHeader`; `none` when it panics. -/
def decodeHeader (header : List Byte) : Option (Nat × Nat × Nat) := do
  let timestamp ← Uint32 (← sliceFrom header 0)
  let keySize ← Uint32 (← sliceFrom header (headerSize / 3))
  let valueSize ← Uint32 (← sliceFrom header ((headerSize / 3) * 2))
  pure (timestamp, keySize, valueSize)

/-- The function `encodeKV`; `none` when it panics. -/
def encodeKV (timestamp : Nat) (key value : List Byte) : Option (Nat × List Byte) :=
  let keySize := uint32 key.length
  let valueSize := uint32 value.length
  let keyBytes := make keySize
  let valueBytes := make valueSize
  let size := headerSize + keySize + valueSize
  let keyEnd := uint32 (headerSize + keySize)
  let valueEnd := uint32 (keyEnd + valueSize)
  let header := encodeHeader timestamp keySize valueSize
  let keyBytes := copy keyBytes key
  let valueBytes := copy valueBytes value
  let kv := make size
  do
    let kv ← copyInto kv 0 headerSize header
    let kv ← copyInto kv headerSize keyEnd keyBytes
    let kv ← copyInto kv keyEnd valueEnd valueBytes
    pure (size, kv)

/-- The function `decodeKV`; `none` when it panics. -/
def decodeKV (data : List Byte) : Option (Nat × List Byte × List Byte) := do
  let (timestamp, keySize, _) ← decodeHeader data
  let keyOffset := headerSize
  let valueOffset := uint32 (headerSize + keySize)
  let key ← slice data keyOffset valueOffset
  let value ← sliceFrom data valueOffset
  pure (timestamp, key, value)

/-- The function `decodeKVNoHeader`; `none` when it panics. -/
def decodeKVNoHeader (data : List Byte) (keySize : Nat) : Option (List Byte × List Byte) := do
  let key ← slice data 0 keySize
  let value ← sliceFrom data keySize
  pure (key, value)

/-! ## bitcask_store.go -/

/-- The type `map[string]KeyEntry`, as an association list with at most one
pair per key. -/
abbrev KeyDir := List (List Byte × KeyEntry)

/-- The map lookup `keyDir[key]` with its presence flag. -/
def KeyDir.get : KeyDir → List Byte → Option KeyEntry
  | [], _ => none
  | (k, e) :: m, key => if k = key then some e else KeyDir.get m key

/-- The map assignment `keyDir[key] = entry`: it replaces the pair of `key`
when there is one and adds a pair otherwise. -/
def KeyDir.set : KeyDir → List Byte → KeyEntry → KeyDir
  | [], key, entry => [(key, entry)]
  | (k, e) :: m, key, entry =>
    if k = key then (key, entry) :: m else (k, e) :: KeyDir.set m key entry

/-- The struct `BitcaskStore`.  The field `file` is the content of the log
file the handle is open on. -/
structure BitcaskStore where
  file : List Byte
  keyDir : KeyDir
  lastWrittenPos : Nat
deriving DecidableEq, Repr

/-- How a run of a loop ends: with a result, in a run-time panic, or with the
iteration budget of the embedding used up. -/
inductive Run (α : Type) where
  | ok (a : α)
  | panicked
  | outOfFuel
deriving DecidableEq, Repr

/-- The loop of `initKeyDir` on the bytes `rest` that are still unread.
`io.ReadFull` fails when fewer bytes are left than the buffer holds, and it
succeeds on an empty buffer.  One unit of `fuel` is one iteration. -/
def initKeyDirLoop (fuel : Nat) (rest : List Byte) (b : BitcaskStore) : Run BitcaskStore :=
  if rest.length < headerSize then Run.ok b
  else
    match fuel with
    | 0 => Run.outOfFuel
    | fuel + 1 =>
      match decodeHeader (rest.take headerSize) with
      | none => Run.panicked
      | some (timestamp, keySize, valueSize) =>
        let dataSize := uint32 (keySize + valueSize)
        let rest := rest.drop headerSize
        if rest.length < dataSize then Run.ok b
        else
          match decodeKVNoHeader (rest.take dataSize) keySize with
          | none => Run.panicked
          | some (key, _) =>
            let entrySize := headerSize + dataSize
            initKeyDirLoop fuel (rest.drop dataSize)
              { b with
                keyDir := b.keyDir.set key (NewKeyEntry entrySize b.lastWrittenPos timestamp)
                lastWrittenPos := b.lastWrittenPos + entrySize }

/-- The method `initKeyDir` on a file with the bytes `content`.  Every
iteration reads at least `headerSize` bytes, so `content.length` iterations
are a budget the loop cannot use up. -/
def BitcaskStore.initKeyDir (b : BitcaskStore) (content : List Byte) : Run BitcaskStore :=
  initKeyDirLoop content.length content b

/-- The function `NewBitcaskStore` on a path that holds no file (`none`) or a
file with the given bytes; `os.OpenFile` with `O_CREATE` succeeds and creates
the missing file empty. -/
def NewBitcaskStore (disk : Option (List Byte)) : Run BitcaskStore :=
  let b : BitcaskStore := { file := [], keyDir := [], lastWrittenPos := 0 }
  match disk with
  | none => Run.ok b
  | some content =>
    match b.initKeyDir content with
    | Run.ok b => Run.ok { b with file := content }
    | Run.panicked => Run.panicked
    | Run.outOfFuel => Run.outOfFuel

/-- The call `file.ReadAt(data, off)` with its error dropped: the content of
`data` afterwards.  It reads `len(data)` bytes or up to the end of the file. -/
def ReadAt (file data : List Byte) (off : Nat) : List Byte :=
  copy data (file.drop off)

/-- The call `file.Write(kv)` on a file opened with `O_APPEND`, when the
operating system accepts at most `accepted` bytes: the number of bytes
written and the content of the file afterwards. -/
def Write (file kv : List Byte) (accepted : Nat) : Nat × List Byte :=
  let n := min kv.length accepted
  (n, file ++ kv.take n)

/-- The method `Get`; `none` when it panics. -/
def BitcaskStore.Get (b : BitcaskStore) (key : List Byte) : Option (List Byte) :=
  match b.keyDir.get key with
  | none => some []
  | some keyEntry =>
    let data := make keyEntry.entrySize
    let data := ReadAt b.file data keyEntry.entryPos
    match decodeKV data with
    | none => none
    | some (_, _, value) => some value

/-- The method `Set`, with the clock reading `now` of `time.Now().Unix()` and
the number `accepted` of bytes the write can store; `none` when it panics. -/
def BitcaskStore.Set (b : BitcaskStore) (now : Int) (accepted : Nat)
    (key value : List Byte) : Option BitcaskStore :=
  let timestamp := uint32OfInt now
  match encodeKV timestamp key value with
  | none => none
  | some (entrySize, kv) =>
    let (bytesWritten, file) := Write b.file kv accepted
    some { file := file
           keyDir := b.keyDir.set key (NewKeyEntry entrySize b.lastWrittenPos timestamp)
           lastWrittenPos := b.lastWrittenPos + bytesWritten }

/-- The method `Close`, given whether `file.Close()` reports an error: the
returned flag and the store afterwards. -/
def BitcaskStore.Close (b : BitcaskStore) (closeErr : Bool) : Bool × BitcaskStore :=
  if closeErr then (true, { b with keyDir := [], lastWrittenPos := 0 })
  else (false, b)

/-! ## Sequences of calls -/

/-- One call of `Set` together with what its environment does. -/
structure SetCall where
  now : Int
  accepted : Nat
  key : List Byte
  value : List Byte
deriving DecidableEq, Repr

/-- The record of the call is shorter than `2^32` bytes and its write
completes in full. -/
def SetCall.Complete (c : SetCall) : Prop :=
  headerSize + c.key.length + c.value.length < 4294967296 ∧
    headerSize + c.key.length + c.value.length ≤ c.accepted

instance (c : SetCall) : Decidable c.Complete := by
  unfold SetCall.Complete; infer_instance

/-- A sequence of `Set` calls, one after the other; `none` when one panics. -/
def BitcaskStore.Sets (b : BitcaskStore) : List SetCall → Option BitcaskStore
  | [] => some b
  | c :: cs =>
    match b.Set c.now c.accepted c.key c.value with
    | none => none
    | some b => BitcaskStore.Sets b cs

/-- The value of the last call in the sequence that sets `key`, if any. -/
def lastSet : List SetCall → List Byte → Option (List Byte)
  | [], _ => none
  | c :: cs, key =>
    match lastSet cs key with
    | some v => some v
    | none => if c.key = key then some c.value else none

/-- The bytes of the records a sequence of calls appends when every record is
encoded and written in full. -/
def logOf : List SetCall → List Byte
  | [] => []
  | c :: cs =>
    (match encodeKV (uint32OfInt c.now) c.key c.value with
      | none => []
      | some (_, kv) => kv) ++ logOf cs

/-! ## Predicates used to state the properties -/

/-- The bytes of `file` at `e.entryPos`, `e.entrySize` of them, all inside the
file, are the record of `key` and `value` with the timestamp of `e`. -/
def RecordAt (file : List Byte) (e : KeyEntry) (key value : List Byte) : Prop :=
  e.timestamp < 4294967296 ∧ 12 + key.length + value.length < 4294967296 ∧
    e.entrySize = 12 + key.length + value.length ∧
    e.entryPos + e.entrySize ≤ file.length ∧
    (file.drop e.entryPos).take e.entrySize
      = encodeHeader e.timestamp key.length value.length ++ key ++ value

/-- The store `b` holds the contents `m`: the write cursor is the length of
the file, the keys of `keyDir` are the keys of `m`, no key has two pairs, and
the entry of each key locates a record of that key and of its value in `m`. -/
def Holds (b : BitcaskStore) (m : List Byte → Option (List Byte)) : Prop :=
  b.lastWrittenPos = b.file.length ∧
    (b.keyDir.map Prod.fst).Nodup ∧
    (∀ key, b.keyDir.get key = none → m key = none) ∧
    (∀ key e, b.keyDir.get key = some e → ∃ value, m key = some value ∧
      RecordAt b.file e key value)

/-- The byte sequence `r` is a record: the bytes `encodeKV` returns for some
`uint32` timestamp, key and value. -/
def IsRecord (r : List Byte) : Prop :=
  ∃ (timestamp : Nat) (key value : List Byte),
    timestamp < 4294967296 ∧ encodeKV timestamp key value = some (r.length, r)

/-- The number a byte sequence denotes in big-endian order, the most
significant byte first. -/
def bigEndian (bytes : List Byte) : Nat :=
  bytes.foldl (fun acc x => acc * 256 + x.val) 0

/-- The write of the call completes in full: the operating system accepts all
the `headerSize + keySize + valueSize` bytes of the record `encodeKV` builds. -/
def SetCall.WritesInFull (c : SetCall) : Prop :=
  headerSize + uint32 c.key.length + uint32 c.value.length ≤ c.accepted

instance (c : SetCall) : Decidable c.WritesInFull := by
  unfold SetCall.WritesInFull; infer_instance

/-- Every entry of `keyDir` has a size of at least `headerSize` and ends at or
before the cursor, and the cursor is at or before the end of the file. -/
def Bounded (b : BitcaskStore) : Prop :=
  b.lastWrittenPos ≤ b.file.length ∧
    ∀ key e, b.keyDir.get key = some e →
      headerSize ≤ e.entrySize ∧ e.entryPos + e.entrySize ≤ b.lastWrittenPos

/-! ## The header codec -/

theorem byte_val (v : Nat) : (byte v).val = v % 256 := rfl

theorem Uint32_cons (b0 b1 b2 b3 : Byte) (t : List Byte) :
    Uint32 (b0 :: b1 :: b2 :: b3 :: t)
      = some (b0.val * 16777216 + b1.val * 65536 + b2.val * 256 + b3.val) := by
  have h0 := b0.isLt
  have h1 := b1.isLt
  have h2 := b2.isLt
  have h3 := b3.isLt
  simp only [Uint32, Option.some.injEq, Nat.shiftLeft_eq]
  have e1 : b2.val * 2 ^ 8 + b3.val = b3.val ||| b2.val * 2 ^ 8 := by
    rw [Nat.mul_comm, Nat.mul_add_lt_is_or (by omega), Nat.or_comm]
  have e2 : b1.val * 2 ^ 16 + (b2.val * 2 ^ 8 + b3.val)
      = (b3.val ||| b2.val * 2 ^ 8) ||| b1.val * 2 ^ 16 := by
    rw [← e1, Nat.mul_comm, Nat.mul_add_lt_is_or (by omega), Nat.or_comm]
  have e3 : b0.val * 2 ^ 24 + (b1.val * 2 ^ 16 + (b2.val * 2 ^ 8 + b3.val))
      = ((b3.val ||| b2.val * 2 ^ 8) ||| b1.val * 2 ^ 16) ||| b0.val * 2 ^ 24 := by
    rw [← e2, Nat.mul_comm, Nat.mul_add_lt_is_or (by omega), Nat.or_comm]
  rw [← e3]
  omega

theorem encodeHeader_eq (ts ks vs : Nat) :
    encodeHeader ts ks vs
      = [byte (ts >>> 24), byte (ts >>> 16), byte (ts >>> 8), byte ts,
         byte (ks >>> 24), byte (ks >>> 16), byte (ks >>> 8), byte ks,
         byte (vs >>> 24), byte (vs >>> 16), byte (vs >>> 8), byte vs] := rfl

theorem encodeHeader_length (ts ks vs : Nat) : (encodeHeader ts ks vs).length = 12 := by
  rw [encodeHeader_eq]; rfl

theorem uint32_bytes (v : Nat) (h : v < 4294967296) :
    (byte (v >>> 24)).val * 16777216 + (byte (v >>> 16)).val * 65536
      + (byte (v >>> 8)).val * 256 + (byte v).val = v := by
  simp only [byte_val, Nat.shiftRight_eq_div_pow]
  omega

theorem decodeHeader_encodeHeader_append (ts ks vs : Nat) (t : List Byte)
    (hts : ts < 4294967296) (hks : ks < 4294967296) (hvs : vs < 4294967296) :
    decodeHeader (encodeHeader ts ks vs ++ t) = some (ts, ks, vs) := by
  rw [encodeHeader_eq]
  simp only [decodeHeader, sliceFrom, headerSize, List.cons_append, List.nil_append,
    List.length_cons, Nat.zero_le, if_true, List.drop_zero, Uint32_cons, uint32_bytes _ hts,
    uint32_bytes _ hks, uint32_bytes _ hvs, Option.bind_eq_bind, Option.some_bind,
    Option.pure_def]
  simp [Uint32_cons, uint32_bytes _ hks, uint32_bytes _ hvs]

/-! ## The record codec -/

theorem copy_same_length (dst src : List Byte) (h : src.length = dst.length) :
    copy dst src = src := by
  simp [copy, h]

theorem copy_make_take (n : Nat) (src : List Byte) (h : n ≤ src.length) :
    copy (make n) src = src.take n := by
  simp [copy, make, Nat.min_eq_left h]

theorem copyInto_window (a w c src : List Byte) (h : src.length = w.length) :
    copyInto (a ++ w ++ c) a.length (a.length + w.length) src = some (a ++ src ++ c) := by
  have hs : slice (a ++ w ++ c) a.length (a.length + w.length) = some w := by
    simp [slice, List.append_assoc]
  unfold copyInto
  rw [hs]
  simp [copy_same_length _ _ h, List.append_assoc]

theorem copyInto_none (buf src : List Byte) (lo hi : Nat) (h : hi < lo) :
    copyInto buf lo hi src = none := by
  have hs : slice buf lo hi = none := by
    simp only [slice, ite_eq_right_iff]
    intro h1; omega
  simp [copyInto, hs]

theorem make_add (m n : Nat) : make (m + n) = make m ++ make n := by
  unfold make
  exact List.replicate_add m n 0

theorem make_length (n : Nat) : (make n).length = n := by simp [make]

theorem uint32_le (n : Nat) : uint32 n ≤ n := Nat.mod_le _ _

theorem uint32_lt (n : Nat) : uint32 n < 4294967296 := Nat.mod_lt _ (by decide)

theorem uint32_of_lt (n : Nat) (h : n < 4294967296) : uint32 n = n := Nat.mod_eq_of_lt h

/-- The body of `encodeKV` once the two lengths are known to be `ks` and `vs`. -/
theorem encodeKV_core (hdr kb vb : List Byte) (ks vs : Nat) (hh : hdr.length = 12)
    (hkb : kb.length = ks) (hvb : vb.length = vs) (hks : ks < 4294967296)
    (hvs : vs < 4294967296) :
    ((copyInto (make (12 + ks + vs)) 0 12 hdr).bind fun kv =>
      (copyInto kv 12 (uint32 (12 + ks)) kb).bind fun kv =>
        (copyInto kv (uint32 (12 + ks)) (uint32 (uint32 (12 + ks) + vs)) vb).bind fun kv =>
          some (12 + ks + vs, kv))
      = if 12 + ks + vs < 4294967296 then some (12 + ks + vs, hdr ++ kb ++ vb) else none := by
  have step1 : copyInto (make (12 + ks + vs)) 0 12 hdr = some (hdr ++ make ks ++ make vs) := by
    have := copyInto_window [] (make 12) (make ks ++ make vs) hdr (by rw [hh, make_length])
    simpa [make_add, make_length, List.append_assoc] using this
  rw [step1, Option.some_bind]
  by_cases hke : 12 + ks < 4294967296
  · have step2 := copyInto_window hdr (make ks) (make vs) kb (by rw [hkb, make_length])
    rw [hh, make_length] at step2
    rw [uint32_of_lt _ hke, step2, Option.some_bind]
    by_cases hfit : 12 + ks + vs < 4294967296
    · have step3 := copyInto_window (hdr ++ kb) (make vs) [] vb (by rw [hvb, make_length])
      rw [List.length_append, hh, hkb, make_length, List.append_nil, List.append_nil] at step3
      rw [uint32_of_lt _ hfit, step3, if_pos hfit]
      rfl
    · rw [copyInto_none _ _ _ _ (by unfold uint32; omega), if_neg hfit]
      rfl
  · rw [copyInto_none _ _ _ _ (by unfold uint32; omega), if_neg (by omega)]
    rfl

/-- What `encodeKV` computes: it panics exactly when the `uint32` offsets wrap. -/
theorem encodeKV_eq (ts : Nat) (key value : List Byte) :
    encodeKV ts key value =
      if 12 + uint32 key.length + uint32 value.length < 4294967296 then
        some (12 + uint32 key.length + uint32 value.length,
          encodeHeader ts (uint32 key.length) (uint32 value.length)
            ++ key.take (uint32 key.length) ++ value.take (uint32 value.length))
      else none := by
  have hk := uint32_le key.length
  have hv := uint32_le value.length
  have hkl : (key.take (uint32 key.length)).length = uint32 key.length := by
    simp [Nat.min_eq_left hk]
  have hvl : (value.take (uint32 value.length)).length = uint32 value.length := by
    simp [Nat.min_eq_left hv]
  have core := encodeKV_core (encodeHeader ts (uint32 key.length) (uint32 value.length))
    (key.take (uint32 key.length)) (value.take (uint32 value.length)) _ _
    (encodeHeader_length _ _ _) hkl hvl (uint32_lt _) (uint32_lt _)
  rw [← core]
  simp only [encodeKV, copy_make_take _ _ hk, copy_make_take _ _ hv, headerSize,
    Option.bind_eq_bind, Option.pure_def]

/-- On a key and a value whose record is shorter than `2^32` bytes `encodeKV`
returns the header followed by the key and the value. -/
theorem encodeKV_fits (ts : Nat) (key value : List Byte)
    (h : 12 + key.length + value.length < 4294967296) :
    encodeKV ts key value =
      some (12 + key.length + value.length,
        encodeHeader ts key.length value.length ++ key ++ value) := by
  rw [encodeKV_eq, uint32_of_lt key.length (by omega), uint32_of_lt value.length (by omega),
    if_pos h, List.take_length, List.take_length]

/-- The function `decodeKV` on a header followed by a key of the declared
length and a value. -/
theorem decodeKV_record (ts vs : Nat) (key value : List Byte)
    (hts : ts < 4294967296) (hk : 12 + key.length < 4294967296) (hvs : vs < 4294967296) :
    decodeKV (encodeHeader ts key.length vs ++ key ++ value) = some (ts, key, value) := by
  have hd : decodeHeader (encodeHeader ts key.length vs ++ key ++ value)
      = some (ts, key.length, vs) := by
    rw [List.append_assoc]
    exact decodeHeader_encodeHeader_append ts key.length vs _ hts (by omega) hvs
  have hl := encodeHeader_length ts key.length vs
  have hslice : slice (encodeHeader ts key.length vs ++ key ++ value) 12 (12 + key.length)
      = some key := by
    have h1 : (encodeHeader ts key.length vs ++ key ++ value).drop 12 = key ++ value := by
      rw [List.append_assoc, List.drop_left' hl]
    simp only [slice, h1, List.length_append, hl]
    rw [if_pos (by omega)]
    simp
  have hfrom : sliceFrom (encodeHeader ts key.length vs ++ key ++ value) (12 + key.length)
      = some value := by
    have h1 : (encodeHeader ts key.length vs ++ key ++ value).drop (12 + key.length) = value := by
      apply List.drop_left'
      rw [List.length_append, hl]
    simp only [sliceFrom, h1, List.length_append, hl]
    rw [if_pos (by omega)]
  simp only [decodeKV, hd, headerSize, uint32_of_lt _ hk, hslice, hfrom, Option.bind_eq_bind,
    Option.some_bind, Option.pure_def]

/-! ## The index -/

theorem uint32OfInt_lt (t : Int) : uint32OfInt t < 4294967296 := by
  unfold uint32OfInt
  omega

theorem KeyDir.get_set_self (m : KeyDir) (key : List Byte) (e : KeyEntry) :
    KeyDir.get (KeyDir.set m key e) key = some e := by
  induction m with
  | nil => simp [KeyDir.set, KeyDir.get]
  | cons p m ih =>
    obtain ⟨k, e0⟩ := p
    by_cases h : k = key
    · simp [KeyDir.set, KeyDir.get, h]
    · simp [KeyDir.set, KeyDir.get, h, ih]

theorem KeyDir.get_set_ne (m : KeyDir) (key other : List Byte) (e : KeyEntry)
    (hne : key ≠ other) : KeyDir.get (KeyDir.set m key e) other = KeyDir.get m other := by
  induction m with
  | nil => simp [KeyDir.set, KeyDir.get, hne]
  | cons p m ih =>
    obtain ⟨k, e0⟩ := p
    by_cases h : k = key
    · subst h
      simp [KeyDir.set, KeyDir.get, hne]
    · simp [KeyDir.set, KeyDir.get, h, ih]

theorem KeyDir.isSome_get_set (m : KeyDir) (key other : List Byte) (e : KeyEntry)
    (h : (KeyDir.get m other).isSome) : (KeyDir.get (KeyDir.set m key e) other).isSome := by
  by_cases hk : key = other
  · subst hk
    rw [KeyDir.get_set_self]
    rfl
  · rw [KeyDir.get_set_ne _ _ _ _ hk]
    exact h

theorem KeyDir.keys_set (m : KeyDir) (key : List Byte) (e : KeyEntry) :
    ∀ k, k ∈ (KeyDir.set m key e).map Prod.fst ↔ k = key ∨ k ∈ m.map Prod.fst := by
  induction m with
  | nil => intro k; simp [KeyDir.set]
  | cons p m ih =>
    obtain ⟨k0, e0⟩ := p
    intro k
    by_cases h : k0 = key
    · subst h
      simp [KeyDir.set]
    · simp only [KeyDir.set, h, if_false, List.map_cons, List.mem_cons, ih k]
      tauto

theorem KeyDir.nodup_set (m : KeyDir) (key : List Byte) (e : KeyEntry)
    (h : (m.map Prod.fst).Nodup) : ((KeyDir.set m key e).map Prod.fst).Nodup := by
  induction m with
  | nil => simp [KeyDir.set]
  | cons p m ih =>
    obtain ⟨k0, e0⟩ := p
    rw [List.map_cons, List.nodup_cons] at h
    by_cases hk : k0 = key
    · subst hk
      simp only [KeyDir.set, if_true, List.map_cons, List.nodup_cons]
      exact h
    · simp only [KeyDir.set, hk, if_false, List.map_cons, List.nodup_cons]
      refine ⟨?_, ih h.2⟩
      rw [KeyDir.keys_set]
      intro hmem
      rcases hmem with hmem | hmem
      · exact hk hmem
      · exact h.1 hmem

theorem KeyDir.get_eq_none (m : KeyDir) (key : List Byte)
    (h : key ∉ m.map Prod.fst) : KeyDir.get m key = none := by
  induction m with
  | nil => rfl
  | cons p m ih =>
    obtain ⟨k0, e0⟩ := p
    simp only [List.map_cons, List.mem_cons, not_or] at h
    simp only [KeyDir.get, if_neg (Ne.symm h.1)]
    exact ih h.2

theorem KeyDir.filter_of_get (m : KeyDir) (key : List Byte) (e : KeyEntry)
    (hnd : (m.map Prod.fst).Nodup) (hget : KeyDir.get m key = some e) :
    m.filter (fun p => decide (p.1 = key)) = [(key, e)] := by
  induction m with
  | nil => simp [KeyDir.get] at hget
  | cons p m ih =>
    obtain ⟨k0, e0⟩ := p
    rw [List.map_cons, List.nodup_cons] at hnd
    by_cases hk : k0 = key
    · subst hk
      simp only [KeyDir.get, if_true, Option.some.injEq] at hget
      subst hget
      have hnone : m.filter (fun p => decide (p.1 = k0)) = [] := by
        rw [List.filter_eq_nil_iff]
        intro p hp hpk
        simp only [decide_eq_true_eq] at hpk
        have hmem : p.1 ∈ m.map Prod.fst := List.mem_map_of_mem _ hp
        rw [hpk] at hmem
        exact hnd.1 hmem
      simp [List.filter_cons, hnone]
    · simp only [KeyDir.get, if_neg hk] at hget
      simp [List.filter_cons, hk, ih hnd.2 hget]

/-! ## The write path and the read path -/

/-- A call of `Set` whose record is shorter than `2^32` bytes and whose write
completes in full. -/
theorem Set_complete (b : BitcaskStore) (now : Int) (accepted : Nat) (key value : List Byte)
    (hlen : 12 + key.length + value.length < 4294967296)
    (hfull : 12 + key.length + value.length ≤ accepted) :
    b.Set now accepted key value = some
      { file := b.file ++ (encodeHeader (uint32OfInt now) key.length value.length ++ key ++ value)
        keyDir := b.keyDir.set key
          (NewKeyEntry (12 + key.length + value.length) b.lastWrittenPos (uint32OfInt now))
        lastWrittenPos := b.lastWrittenPos + (12 + key.length + value.length) } := by
  have hl : (encodeHeader (uint32OfInt now) key.length value.length ++ key ++ value).length
      = 12 + key.length + value.length := by
    simp only [List.length_append, encodeHeader_length]
  simp only [BitcaskStore.Set, encodeKV_fits _ key value hlen, Write, hl, Nat.min_eq_left hfull]
  rw [← hl, List.take_length]

/-- A call of `Set` whose key and value have `uint32` lengths and whose record
has `2^32` bytes or more panics in `encodeKV`. -/
theorem Set_oversize (b : BitcaskStore) (now : Int) (accepted : Nat) (key value : List Byte)
    (hk : key.length < 4294967296) (hv : value.length < 4294967296)
    (hbig : 4294967296 ≤ 12 + key.length + value.length) :
    b.Set now accepted key value = none := by
  simp only [BitcaskStore.Set, encodeKV_eq, uint32_of_lt _ hk, uint32_of_lt _ hv,
    if_neg (Nat.not_lt.mpr hbig)]

theorem length_replicate_zero (n : Nat) : (List.replicate n (0 : Byte)).length = n :=
  List.length_replicate _ _

/-- The cursor stays at the end of the file over every call of `Set` that
returns, whatever part of its record is written. -/
theorem Set_cursor (b b1 : BitcaskStore) (now : Int) (accepted : Nat) (key value : List Byte)
    (hsync : b.lastWrittenPos = b.file.length)
    (hset : b.Set now accepted key value = some b1) :
    b1.lastWrittenPos = b1.file.length := by
  unfold BitcaskStore.Set at hset
  cases henc : encodeKV (uint32OfInt now) key value with
  | none => simp [henc] at hset
  | some r =>
    obtain ⟨size, kv⟩ := r
    simp only [henc, Write, Option.some.injEq] at hset
    subst hset
    simp only [List.length_append, List.length_take, hsync]
    omega

theorem Sets_cursor (calls : List SetCall) (b b1 : BitcaskStore)
    (hsync : b.lastWrittenPos = b.file.length) (hsets : b.Sets calls = some b1) :
    b1.lastWrittenPos = b1.file.length := by
  induction calls generalizing b with
  | nil =>
    simp only [BitcaskStore.Sets, Option.some.injEq] at hsets
    subst hsets
    exact hsync
  | cons c cs ih =>
    simp only [BitcaskStore.Sets] at hsets
    cases hset : b.Set c.now c.accepted c.key c.value with
    | none => simp [hset] at hsets
    | some b2 =>
      simp only [hset] at hsets
      exact ih b2 (Set_cursor b b2 _ _ _ _ hsync hset) hsets

theorem ReadAt_inside (file : List Byte) (size pos : Nat) (h : pos + size ≤ file.length) :
    ReadAt file (make size) pos = (file.drop pos).take size := by
  have h1 : size ≤ (file.drop pos).length := by
    rw [List.length_drop]; omega
  simp only [ReadAt, copy, make_length, Nat.min_eq_left h1]
  simp [make]

/-- The method `Get` on a key whose entry locates a record of the key. -/
theorem Get_of_recordAt (b : BitcaskStore) (key value : List Byte) (e : KeyEntry)
    (hget : b.keyDir.get key = some e) (hrec : RecordAt b.file e key value) :
    b.Get key = some value := by
  obtain ⟨hts, hlen, hsize, hin, hbytes⟩ := hrec
  simp only [BitcaskStore.Get, hget, ReadAt_inside _ _ _ hin, hbytes,
    decodeKV_record e.timestamp value.length key value hts (by omega) (by omega)]

theorem RecordAt_append (file more : List Byte) (e : KeyEntry) (key value : List Byte)
    (h : RecordAt file e key value) : RecordAt (file ++ more) e key value := by
  obtain ⟨hts, hlen, hsize, hin, hbytes⟩ := h
  refine ⟨hts, hlen, hsize, by rw [List.length_append]; omega, ?_⟩
  rw [← hbytes, List.drop_append_of_le_length (by omega), List.take_append_of_le_length]
  rw [List.length_drop]
  omega

theorem RecordAt_end (file : List Byte) (ts : Nat) (key value : List Byte)
    (hts : ts < 4294967296) (hlen : 12 + key.length + value.length < 4294967296) :
    RecordAt (file ++ (encodeHeader ts key.length value.length ++ key ++ value))
      (NewKeyEntry (12 + key.length + value.length) file.length ts) key value := by
  have hl : (encodeHeader ts key.length value.length ++ key ++ value).length
      = 12 + key.length + value.length := by
    simp only [List.length_append, encodeHeader_length]
  refine ⟨hts, hlen, rfl, ?_, ?_⟩
  · simp only [NewKeyEntry, List.length_append, encodeHeader_length]
    omega
  · simp only [NewKeyEntry]
    rw [List.drop_left, ← hl, List.take_length]

/-- A complete call of `Set` on a store that holds `m` gives a store that
holds `m` with the key set to the value. -/
theorem Set_holds (b : BitcaskStore) (m : List Byte → Option (List Byte)) (now : Int)
    (accepted : Nat) (key value : List Byte) (hb : Holds b m)
    (hlen : 12 + key.length + value.length < 4294967296)
    (hfull : 12 + key.length + value.length ≤ accepted) :
    ∃ b1, b.Set now accepted key value = some b1 ∧
      Holds b1 (Function.update m key (some value)) := by
  refine ⟨_, Set_complete b now accepted key value hlen hfull, ?_⟩
  obtain ⟨hsync, hnd, hnone, hsome⟩ := hb
  refine ⟨?_, KeyDir.nodup_set _ _ _ hnd, ?_, ?_⟩
  · simp only [List.length_append, encodeHeader_length, hsync]
  · intro k hk
    by_cases hkk : key = k
    · subst hkk
      simp [KeyDir.get_set_self] at hk
    · simp only [KeyDir.get_set_ne _ _ _ _ hkk] at hk
      rw [Function.update_noteq (Ne.symm hkk)]
      exact hnone k hk
  · intro k e hk
    by_cases hkk : key = k
    · subst hkk
      simp only [KeyDir.get_set_self, Option.some.injEq] at hk
      subst hk
      refine ⟨value, by simp, ?_⟩
      rw [hsync]
      exact RecordAt_end b.file _ key value (uint32OfInt_lt now) hlen
    · simp only [KeyDir.get_set_ne _ _ _ _ hkk] at hk
      obtain ⟨v, hv, hrec⟩ := hsome k e hk
      refine ⟨v, ?_, RecordAt_append _ _ _ _ _ hrec⟩
      rw [Function.update_noteq (Ne.symm hkk)]
      exact hv

theorem Holds_fresh : Holds { file := [], keyDir := [], lastWrittenPos := 0 } (fun _ => none) := by
  refine ⟨rfl, by simp, fun _ _ => rfl, ?_⟩
  intro k e hk
  simp [KeyDir.get] at hk

theorem Holds_get (b : BitcaskStore) (m : List Byte → Option (List Byte)) (hb : Holds b m)
    (key value : List Byte) (hm : m key = some value) : b.Get key = some value := by
  obtain ⟨_, _, hnone, hsome⟩ := hb
  cases hk : b.keyDir.get key with
  | none =>
    rw [hnone key hk] at hm
    cases hm
  | some e =>
    obtain ⟨v, hv, hrec⟩ := hsome key e hk
    rw [hm] at hv
    cases hv
    exact Get_of_recordAt b key value e hk hrec

/-- A sequence of complete calls on a store that holds `m` returns a store
that holds `m` overridden by the last value set for each key. -/
theorem Sets_holds (calls : List SetCall) (b : BitcaskStore)
    (m : List Byte → Option (List Byte)) (hb : Holds b m)
    (hall : ∀ c ∈ calls, c.Complete) :
    ∃ b1, b.Sets calls = some b1 ∧
      Holds b1 (fun key => (lastSet calls key).orElse (fun _ => m key)) := by
  induction calls generalizing b m with
  | nil =>
    refine ⟨b, rfl, ?_⟩
    simpa [lastSet] using hb
  | cons c cs ih =>
    have hc := hall c (List.mem_cons_self _ _)
    obtain ⟨b1, hset, hb1⟩ := Set_holds b m c.now c.accepted c.key c.value hb hc.1 hc.2
    obtain ⟨b2, hsets, hb2⟩ := ih b1 _ hb1 (fun x hx => hall x (List.mem_cons_of_mem _ hx))
    refine ⟨b2, by simp only [BitcaskStore.Sets, hset, hsets], ?_⟩
    have hfun : (fun key => (lastSet (c :: cs) key).orElse (fun _ => m key))
        = (fun key => (lastSet cs key).orElse
            (fun _ => Function.update m c.key (some c.value) key)) := by
      funext key
      simp only [lastSet]
      cases hl : lastSet cs key with
      | some v => simp
      | none =>
        by_cases hk : c.key = key
        · subst hk
          simp
        · simp [hk, Function.update_noteq (Ne.symm hk)]
    rw [hfun]
    exact hb2

/-! ## Recovery -/

theorem decodeKVNoHeader_append (key value : List Byte) :
    decodeKVNoHeader (key ++ value) key.length = some (key, value) := by
  simp [decodeKVNoHeader, slice, sliceFrom]

/-- One iteration of the loop of `initKeyDir` on a complete record. -/
theorem initKeyDirLoop_record (fuel ts : Nat) (key value tail : List Byte) (b : BitcaskStore)
    (hts : ts < 4294967296) (hlen : 12 + key.length + value.length < 4294967296) :
    initKeyDirLoop (fuel + 1) (encodeHeader ts key.length value.length ++ key ++ value ++ tail) b
      = initKeyDirLoop fuel tail
          { b with
            keyDir := b.keyDir.set key
              (NewKeyEntry (12 + key.length + value.length) b.lastWrittenPos ts)
            lastWrittenPos := b.lastWrittenPos + (12 + key.length + value.length) } := by
  have hl := encodeHeader_length ts key.length value.length
  have htake : (encodeHeader ts key.length value.length ++ key ++ value ++ tail).take 12
      = encodeHeader ts key.length value.length := by
    rw [List.append_assoc, List.append_assoc]
    exact List.take_left' hl
  have hdrop : (encodeHeader ts key.length value.length ++ key ++ value ++ tail).drop 12
      = key ++ value ++ tail := by
    rw [List.append_assoc, List.append_assoc, List.drop_left' hl, List.append_assoc]
  have hdec : decodeHeader (encodeHeader ts key.length value.length)
      = some (ts, key.length, value.length) := by
    have := decodeHeader_encodeHeader_append ts key.length value.length [] hts
      (by omega) (by omega)
    rwa [List.append_nil] at this
  have hdata : (key ++ value ++ tail).take (key.length + value.length) = key ++ value := by
    apply List.take_left'
    rw [List.length_append]
  have hrest : (key ++ value ++ tail).drop (key.length + value.length) = tail := by
    apply List.drop_left'
    rw [List.length_append]
  rw [initKeyDirLoop]
  have hlong : ¬ (encodeHeader ts key.length value.length ++ key ++ value ++ tail).length
      < headerSize := by
    simp only [List.length_append, hl, headerSize]
    omega
  rw [if_neg hlong]
  simp only [headerSize, htake, hdrop, hdec, uint32_of_lt (key.length + value.length) (by omega),
    hdata, hrest, decodeKVNoHeader_append]
  have hshort : ¬ (key ++ value ++ tail).length < key.length + value.length := by
    simp only [List.length_append]
    omega
  rw [if_neg hshort, Nat.add_assoc 12 key.length value.length]

/-- The iteration budget is never used up when it is at least the number of
unread bytes: the loop of `initKeyDir` terminates. -/
theorem initKeyDirLoop_fuel (fuel : Nat) (rest : List Byte) (b : BitcaskStore)
    (h : rest.length ≤ fuel) : initKeyDirLoop fuel rest b ≠ Run.outOfFuel := by
  induction fuel generalizing rest b with
  | zero =>
    unfold initKeyDirLoop
    rw [if_pos (by simp only [headerSize]; omega)]
    exact fun h => by cases h
  | succ fuel ih =>
    unfold initKeyDirLoop
    split
    · exact fun h => by cases h
    · rename_i hlong
      simp only [headerSize, Nat.not_lt] at hlong
      cases hdec : decodeHeader (rest.take headerSize) with
      | none => exact fun h => by cases h
      | some hdr =>
        obtain ⟨ts, ks, vs⟩ := hdr
        simp only
        split
        · exact fun h => by cases h
        · cases hkv : decodeKVNoHeader ((rest.drop headerSize).take (uint32 (ks + vs))) ks with
          | none => exact fun h => by cases h
          | some kv =>
            obtain ⟨key, value⟩ := kv
            simp only
            apply ih
            simp only [List.length_drop, headerSize]
            omega

/-- The method `initKeyDir` returns or panics on every file content. -/
theorem initKeyDir_terminates (b : BitcaskStore) (content : List Byte) :
    b.initKeyDir content ≠ Run.outOfFuel :=
  initKeyDirLoop_fuel content.length content b (Nat.le_refl _)

/-- A record is a header followed by a key and a value of the declared
lengths, and it is shorter than `2^32` bytes. -/
theorem IsRecord.shape (r : List Byte) (h : IsRecord r) :
    ∃ (ts : Nat) (key value : List Byte), ts < 4294967296 ∧
      12 + key.length + value.length < 4294967296 ∧
      r = encodeHeader ts key.length value.length ++ key ++ value := by
  obtain ⟨ts, key, value, hts, henc⟩ := h
  rw [encodeKV_eq] at henc
  have hk := uint32_le key.length
  have hv := uint32_le value.length
  by_cases hfit : 12 + uint32 key.length + uint32 value.length < 4294967296
  · rw [if_pos hfit] at henc
    simp only [Option.some.injEq, Prod.mk.injEq] at henc
    refine ⟨ts, key.take (uint32 key.length), value.take (uint32 value.length), hts, ?_, ?_⟩
    · simp only [List.length_take, Nat.min_eq_left hk, Nat.min_eq_left hv]
      exact hfit
    · simp only [List.length_take, Nat.min_eq_left hk, Nat.min_eq_left hv]
      exact henc.2.symm
  · rw [if_neg hfit] at henc
    cases henc

/-- The loop of `initKeyDir` stops, leaving the store as it is, on a non-empty
start of a record that is not the whole record. -/
theorem initKeyDirLoop_truncated (fuel : Nat) (p r : List Byte) (b : BitcaskStore)
    (hr : IsRecord r) (hp : p <+: r) (hlt : p.length < r.length)
    (hfuel : 12 ≤ p.length → 1 ≤ fuel) :
    initKeyDirLoop fuel p b = Run.ok b := by
  by_cases hshort : p.length < 12
  · unfold initKeyDirLoop
    rw [if_pos (by simpa [headerSize] using hshort)]
  · obtain ⟨fuel, rfl⟩ : ∃ f, fuel = f + 1 := ⟨fuel - 1, by omega⟩
    obtain ⟨ts, key, value, hts, hlen, rfl⟩ := IsRecord.shape r hr
    obtain ⟨t, ht⟩ := hp
    have hl := encodeHeader_length ts key.length value.length
    have htake : p.take 12 = encodeHeader ts key.length value.length := by
      have h1 : (p ++ t).take 12 = p.take 12 := List.take_append_of_le_length (by omega)
      rw [← h1, ht, List.append_assoc]
      exact List.take_left' hl
    have hdec : decodeHeader (encodeHeader ts key.length value.length)
        = some (ts, key.length, value.length) := by
      have := decodeHeader_encodeHeader_append ts key.length value.length [] hts
        (by omega) (by omega)
      rwa [List.append_nil] at this
    have hbody : (p.drop 12).length < key.length + value.length := by
      simp only [List.length_append, hl] at hlt
      rw [List.length_drop]
      omega
    rw [initKeyDirLoop, if_neg (by simpa [headerSize] using hshort)]
    simp only [headerSize, htake, hdec, uint32_of_lt (key.length + value.length) (by omega)]
    rw [if_pos hbody]

/-- The loop of `initKeyDir` on a sequence of records followed by `tail`
takes one iteration per record and goes on with `tail`; by then the cursor
has moved over all the records, and the key of every record is indexed. -/
theorem initKeyDirLoop_records (rs : List (List Byte)) (hrs : ∀ r ∈ rs, IsRecord r)
    (b : BitcaskStore) :
    ∃ b1, (∀ fuel tail, initKeyDirLoop (fuel + rs.length) (rs.flatten ++ tail) b
        = initKeyDirLoop fuel tail b1) ∧
      b1.lastWrittenPos = b.lastWrittenPos + rs.flatten.length ∧
      (∀ key, (b.keyDir.get key).isSome → (b1.keyDir.get key).isSome) ∧
      (∀ r ∈ rs, ∀ ts key value, decodeKV r = some (ts, key, value) →
        (b1.keyDir.get key).isSome) := by
  induction rs generalizing b with
  | nil =>
    exact ⟨b, fun fuel tail => by simp, by simp, fun _ h => h, fun r hr => by cases hr⟩
  | cons r rs ih =>
    obtain ⟨ts, key, value, hts, hlen, rfl⟩ := IsRecord.shape r (hrs r (List.mem_cons_self _ _))
    obtain ⟨b1, hb1, hpos, hkeep, hidx⟩ := ih (fun x hx => hrs x (List.mem_cons_of_mem _ hx))
      { b with
        keyDir := b.keyDir.set key
          (NewKeyEntry (12 + key.length + value.length) b.lastWrittenPos ts)
        lastWrittenPos := b.lastWrittenPos + (12 + key.length + value.length) }
    refine ⟨b1, fun fuel tail => ?_, ?_, ?_, ?_⟩
    · rw [List.flatten_cons, List.length_cons, ← Nat.add_assoc, List.append_assoc,
        initKeyDirLoop_record _ ts key value _ b hts hlen]
      exact hb1 fuel tail
    · rw [hpos]
      simp only [List.flatten_cons, List.length_append, encodeHeader_length]
      omega
    · intro k hk
      exact hkeep k (KeyDir.isSome_get_set _ _ _ _ hk)
    · intro r hr ts1 key1 value1 hdec
      rcases List.mem_cons.mp hr with rfl | hr
      · rw [decodeKV_record ts value.length key value hts (by omega) (by omega)] at hdec
        simp only [Option.some.injEq, Prod.mk.injEq] at hdec
        obtain ⟨-, rfl, -⟩ := hdec
        apply hkeep
        show ((b.keyDir.set key _).get key).isSome
        rw [KeyDir.get_set_self]
        rfl
      · exact hidx r hr ts1 key1 value1 hdec

theorem flatten_length_ge (rs : List (List Byte)) (hrs : ∀ r ∈ rs, IsRecord r) :
    12 * rs.length ≤ rs.flatten.length := by
  induction rs with
  | nil => simp
  | cons r rs ih =>
    obtain ⟨ts, key, value, _, _, rfl⟩ := IsRecord.shape r (hrs r (List.mem_cons_self _ _))
    have := ih (fun x hx => hrs x (List.mem_cons_of_mem _ hx))
    simp only [List.flatten_cons, List.length_append, List.length_cons, encodeHeader_length]
    omega

/-! ## Recovery of the log a store wrote -/

theorem logOf_cons_complete (c : SetCall) (cs : List SetCall) (hc : c.Complete) :
    logOf (c :: cs)
      = encodeHeader (uint32OfInt c.now) c.key.length c.value.length ++ c.key ++ c.value
          ++ logOf cs := by
  simp only [logOf, encodeKV_fits _ c.key c.value hc.1]

theorem logOf_append (xs ys : List SetCall) : logOf (xs ++ ys) = logOf xs ++ logOf ys := by
  induction xs with
  | nil => rfl
  | cons c cs ih =>
    show _ ++ logOf (cs ++ ys) = (_ ++ logOf cs) ++ logOf ys
    rw [ih, List.append_assoc]

theorem Sets_append (xs ys : List SetCall) (b : BitcaskStore) :
    b.Sets (xs ++ ys) = (b.Sets xs).bind (fun b1 => b1.Sets ys) := by
  induction xs generalizing b with
  | nil => rfl
  | cons c cs ih =>
    simp only [List.cons_append, BitcaskStore.Sets]
    cases b.Set c.now c.accepted c.key c.value with
    | none => rfl
    | some b2 => exact ih b2

theorem lastSet_append_singleton (xs : List SetCall) (c : SetCall) :
    lastSet (xs ++ [c]) c.key = some c.value := by
  induction xs with
  | nil => simp [lastSet]
  | cons x xs ih => simp [lastSet, ih]

/-- Replaying the log of a sequence of complete calls re-derives the index
and the cursor of the store that made the calls. -/
theorem replay_Sets (calls : List SetCall) (hall : ∀ c ∈ calls, c.Complete) (b : BitcaskStore) :
    ∃ b1, b.Sets calls = some b1 ∧ b1.file = b.file ++ logOf calls ∧
      ∀ (fuel : Nat) (tail f : List Byte),
        initKeyDirLoop (fuel + calls.length) (logOf calls ++ tail)
            { file := f, keyDir := b.keyDir, lastWrittenPos := b.lastWrittenPos }
          = initKeyDirLoop fuel tail
            { file := f, keyDir := b1.keyDir, lastWrittenPos := b1.lastWrittenPos } := by
  induction calls generalizing b with
  | nil => exact ⟨b, rfl, by simp [logOf], fun fuel tail f => by simp [logOf]⟩
  | cons c cs ih =>
    have hc := hall c (List.mem_cons_self _ _)
    have hset := Set_complete b c.now c.accepted c.key c.value hc.1 hc.2
    obtain ⟨b1, hsets, hfile, hreplay⟩ := ih (fun x hx => hall x (List.mem_cons_of_mem _ hx))
      { file := b.file ++ (encodeHeader (uint32OfInt c.now) c.key.length c.value.length
          ++ c.key ++ c.value)
        keyDir := b.keyDir.set c.key
          (NewKeyEntry (12 + c.key.length + c.value.length) b.lastWrittenPos (uint32OfInt c.now))
        lastWrittenPos := b.lastWrittenPos + (12 + c.key.length + c.value.length) }
    refine ⟨b1, by simp only [BitcaskStore.Sets, hset, hsets], ?_, fun fuel tail f => ?_⟩
    · rw [hfile, logOf_cons_complete c cs hc, List.append_assoc]
    · rw [logOf_cons_complete c cs hc, List.length_cons, ← Nat.add_assoc, List.append_assoc,
        initKeyDirLoop_record _ _ c.key c.value _ _ (uint32OfInt_lt c.now) hc.1]
      exact hreplay fuel tail f

theorem logOf_length_ge (calls : List SetCall) (hall : ∀ c ∈ calls, c.Complete) :
    calls.length ≤ (logOf calls).length := by
  induction calls with
  | nil => simp
  | cons c cs ih =>
    have := ih (fun x hx => hall x (List.mem_cons_of_mem _ hx))
    rw [logOf_cons_complete c cs (hall c (List.mem_cons_self _ _))]
    simp only [List.length_append, List.length_cons, encodeHeader_length]
    omega

theorem initKeyDirLoop_nil (fuel : Nat) (b : BitcaskStore) :
    initKeyDirLoop fuel [] b = Run.ok b := by
  unfold initKeyDirLoop
  rfl

theorem Close_file (b : BitcaskStore) (closeErr : Bool) : (b.Close closeErr).2.file = b.file := by
  cases closeErr <;> rfl

/-- A store opened on a path with no file, a sequence of complete calls of
`Set`, `Close`, and a store opened on the file again: the second store is the
first one as it was before `Close`, and it holds the last value of each key. -/
theorem reopen_after_Sets (calls : List SetCall) (hall : ∀ c ∈ calls, c.Complete)
    (closeErr : Bool) :
    ∃ b, (BitcaskStore.mk [] [] 0).Sets calls = some b ∧
      NewBitcaskStore (some (b.Close closeErr).2.file) = Run.ok b ∧
      Holds b (fun key => lastSet calls key) := by
  obtain ⟨b, hsets, hfile, hreplay⟩ := replay_Sets calls hall (BitcaskStore.mk [] [] 0)
  obtain ⟨b2, hsets2, hholds⟩ := Sets_holds calls (BitcaskStore.mk [] [] 0) _ Holds_fresh hall
  rw [hsets] at hsets2
  cases hsets2
  refine ⟨b, hsets, ?_, ?_⟩
  · have hlen := logOf_length_ge calls hall
    have hrun := hreplay ((logOf calls).length - calls.length) [] []
    rw [Nat.sub_add_cancel hlen, List.append_nil, initKeyDirLoop_nil] at hrun
    simp only [List.nil_append] at hfile
    simp only [NewBitcaskStore, BitcaskStore.initKeyDir, Close_file, hfile, hrun]
    rw [← hfile]
  · simpa using hholds

/-! ## Short and long headers, and the decoders side by side -/

theorem bigEndian_four (b0 b1 b2 b3 : Byte) :
    bigEndian [b0, b1, b2, b3]
      = b0.val * 16777216 + b1.val * 65536 + b2.val * 256 + b3.val := by
  simp only [bigEndian, List.foldl_cons, List.foldl_nil]
  omega

/-- The function `decodeHeader` panics on fewer than twelve bytes. -/
theorem decodeHeader_short (header : List Byte) (h : header.length < 12) :
    decodeHeader header = none := by
  rcases header with _ | ⟨b0, _ | ⟨b1, _ | ⟨b2, _ | ⟨b3, _ | ⟨b4, _ | ⟨b5, _ | ⟨b6, _ | ⟨b7,
    _ | ⟨b8, _ | ⟨b9, _ | ⟨b10, _ | ⟨b11, t⟩⟩⟩⟩⟩⟩⟩⟩⟩⟩⟩⟩ <;>
    first
    | (simp only [List.length_cons] at h; omega)
    | simp [decodeHeader, sliceFrom, Uint32, headerSize]

/-- The function `decodeHeader` on twelve bytes followed by anything. -/
theorem decodeHeader_cons (b0 b1 b2 b3 b4 b5 b6 b7 b8 b9 b10 b11 : Byte) (t : List Byte) :
    decodeHeader (b0 :: b1 :: b2 :: b3 :: b4 :: b5 :: b6 :: b7 :: b8 :: b9 :: b10 :: b11 :: t)
      = some (bigEndian [b0, b1, b2, b3], bigEndian [b4, b5, b6, b7],
          bigEndian [b8, b9, b10, b11]) := by
  simp [decodeHeader, sliceFrom, headerSize, Uint32_cons, bigEndian_four]

theorem decodeHeader_take (header : List Byte) (h : 12 ≤ header.length) :
    ∃ r, decodeHeader header = some r ∧ decodeHeader (header.take 12) = some r := by
  rcases header with _ | ⟨b0, _ | ⟨b1, _ | ⟨b2, _ | ⟨b3, _ | ⟨b4, _ | ⟨b5, _ | ⟨b6, _ | ⟨b7,
    _ | ⟨b8, _ | ⟨b9, _ | ⟨b10, _ | ⟨b11, t⟩⟩⟩⟩⟩⟩⟩⟩⟩⟩⟩⟩ <;>
    first
    | (simp only [List.length_cons, List.length_nil] at h; omega)
    | exact ⟨_, decodeHeader_cons _ _ _ _ _ _ _ _ _ _ _ _ t,
        by simpa using decodeHeader_cons b0 b1 b2 b3 b4 b5 b6 b7 b8 b9 b10 b11 []⟩

theorem bigEndian_four_lt (b0 b1 b2 b3 : Byte) : bigEndian [b0, b1, b2, b3] < 4294967296 := by
  have h0 := b0.isLt
  have h1 := b1.isLt
  have h2 := b2.isLt
  have h3 := b3.isLt
  rw [bigEndian_four]
  omega

/-- What `decodeHeader` returns are three `uint32` values. -/
theorem decodeHeader_lt (header : List Byte) (t ks vs : Nat)
    (h : decodeHeader header = some (t, ks, vs)) :
    t < 4294967296 ∧ ks < 4294967296 ∧ vs < 4294967296 := by
  by_cases hlen : header.length < 12
  · rw [decodeHeader_short header hlen] at h
    cases h
  · rcases header with _ | ⟨b0, _ | ⟨b1, _ | ⟨b2, _ | ⟨b3, _ | ⟨b4, _ | ⟨b5, _ | ⟨b6, _ | ⟨b7,
      _ | ⟨b8, _ | ⟨b9, _ | ⟨b10, _ | ⟨b11, t⟩⟩⟩⟩⟩⟩⟩⟩⟩⟩⟩⟩ <;>
      first
      | (simp only [List.length_cons, List.length_nil] at hlen; omega)
      | (rw [decodeHeader_cons] at h
         simp only [Option.some.injEq, Prod.mk.injEq] at h
         obtain ⟨rfl, rfl, rfl⟩ := h
         exact ⟨bigEndian_four_lt _ _ _ _, bigEndian_four_lt _ _ _ _, bigEndian_four_lt _ _ _ _⟩)

theorem decodeHeader_append (hdr body : List Byte) (hlen : hdr.length = 12) :
    decodeHeader (hdr ++ body) = decodeHeader hdr := by
  obtain ⟨r, h1, h2⟩ := decodeHeader_take (hdr ++ body) (by rw [List.length_append]; omega)
  rw [List.take_left' hlen] at h2
  rw [h1, h2]

theorem decodeKVNoHeader_eq (body : List Byte) (ks : Nat) (h : ks ≤ body.length) :
    decodeKVNoHeader body ks = some (body.take ks, body.drop ks) := by
  simp [decodeKVNoHeader, slice, sliceFrom, h]

/-- The function `decodeKV` on a twelve-byte header followed by a body that
holds the declared key: it panics exactly when `headerSize + keySize` wraps
in `uint32`. -/
theorem decodeKV_append (hdr body : List Byte) (t ks vs : Nat) (hlen : hdr.length = 12)
    (hdec : decodeHeader hdr = some (t, ks, vs)) (hks : ks ≤ body.length) :
    decodeKV (hdr ++ body)
      = if 12 + ks < 4294967296 then some (t, body.take ks, body.drop ks) else none := by
  have hlt := (decodeHeader_lt hdr t ks vs hdec).2.1
  have hd : decodeHeader (hdr ++ body) = some (t, ks, vs) := by
    rw [decodeHeader_append hdr body hlen, hdec]
  simp only [decodeKV, hd, headerSize, Option.bind_eq_bind, Option.some_bind, Option.pure_def]
  by_cases hfit : 12 + ks < 4294967296
  · rw [if_pos hfit, uint32_of_lt _ hfit]
    have h1 : slice (hdr ++ body) 12 (12 + ks) = some (body.take ks) := by
      simp only [slice, List.length_append, hlen, List.drop_left' hlen]
      rw [if_pos (by omega)]
      simp
    have h2 : sliceFrom (hdr ++ body) (12 + ks) = some (body.drop ks) := by
      simp only [sliceFrom, List.length_append, hlen]
      rw [if_pos (by omega), ← hlen, List.drop_append]
    rw [h1, h2]
    rfl
  · rw [if_neg hfit]
    have h1 : slice (hdr ++ body) 12 (uint32 (12 + ks)) = none := by
      simp only [slice]
      rw [if_neg]
      unfold uint32
      omega
    rw [h1]
    rfl

/-- The general form of `Set`: it panics exactly when `encodeKV` does, and
otherwise appends the bytes the write stores, indexes the key at the cursor
with the size of the whole record, and moves the cursor by the bytes stored. -/
theorem Set_eq (b : BitcaskStore) (now : Int) (accepted : Nat) (key value : List Byte) :
    b.Set now accepted key value =
      if 12 + uint32 key.length + uint32 value.length < 4294967296 then
        some
          { file := b.file ++ (encodeHeader (uint32OfInt now) (uint32 key.length)
                (uint32 value.length) ++ key.take (uint32 key.length)
                ++ value.take (uint32 value.length)).take
                  (min (12 + uint32 key.length + uint32 value.length) accepted)
            keyDir := b.keyDir.set key
              (NewKeyEntry (12 + uint32 key.length + uint32 value.length) b.lastWrittenPos
                (uint32OfInt now))
            lastWrittenPos := b.lastWrittenPos
              + min (12 + uint32 key.length + uint32 value.length) accepted }
      else none := by
  have hk := uint32_le key.length
  have hv := uint32_le value.length
  have hl : (encodeHeader (uint32OfInt now) (uint32 key.length) (uint32 value.length)
      ++ key.take (uint32 key.length) ++ value.take (uint32 value.length)).length
      = 12 + uint32 key.length + uint32 value.length := by
    simp only [List.length_append, encodeHeader_length, List.length_take, Nat.min_eq_left hk,
      Nat.min_eq_left hv]
  by_cases hfit : 12 + uint32 key.length + uint32 value.length < 4294967296
  · simp only [BitcaskStore.Set, encodeKV_eq, if_pos hfit, Write, hl]
  · simp only [BitcaskStore.Set, encodeKV_eq, if_neg hfit]

/-! ## Entries stay inside the file -/

theorem KeyDir.get_set (m : KeyDir) (key other : List Byte) (e : KeyEntry) :
    KeyDir.get (KeyDir.set m key e) other = if key = other then some e else KeyDir.get m other := by
  by_cases h : key = other
  · subst h
    rw [if_pos rfl, KeyDir.get_set_self]
  · rw [if_neg h, KeyDir.get_set_ne _ _ _ _ h]

/-- The loop of `initKeyDir` keeps every entry in front of the cursor and moves
the cursor over bytes it has read only. -/
theorem initKeyDirLoop_bounded (fuel : Nat) (rest : List Byte) (b b1 : BitcaskStore)
    (hrun : initKeyDirLoop fuel rest b = Run.ok b1)
    (hent : ∀ key e, b.keyDir.get key = some e →
      headerSize ≤ e.entrySize ∧ e.entryPos + e.entrySize ≤ b.lastWrittenPos) :
    (∀ key e, b1.keyDir.get key = some e →
      headerSize ≤ e.entrySize ∧ e.entryPos + e.entrySize ≤ b1.lastWrittenPos) ∧
    b1.lastWrittenPos ≤ b.lastWrittenPos + rest.length := by
  induction fuel generalizing rest b with
  | zero =>
    unfold initKeyDirLoop at hrun
    split at hrun
    · cases hrun
      exact ⟨hent, Nat.le_add_right _ _⟩
    · cases hrun
  | succ fuel ih =>
    unfold initKeyDirLoop at hrun
    split at hrun
    · cases hrun
      exact ⟨hent, Nat.le_add_right _ _⟩
    · rename_i hlong
      simp only [headerSize, Nat.not_lt] at hlong
      cases hdec : decodeHeader (rest.take headerSize) with
      | none => simp only [hdec] at hrun; cases hrun
      | some hdr =>
        obtain ⟨ts, ks, vs⟩ := hdr
        simp only [hdec] at hrun
        split at hrun
        · cases hrun
          exact ⟨hent, Nat.le_add_right _ _⟩
        · rename_i hbody
          simp only [Nat.not_lt, List.length_drop, headerSize] at hbody
          cases hkv : decodeKVNoHeader ((rest.drop headerSize).take (uint32 (ks + vs))) ks with
          | none => simp only [hkv] at hrun; cases hrun
          | some kv =>
            obtain ⟨key, value⟩ := kv
            simp only [hkv] at hrun
            have hstep := ih _ _ hrun (by
              intro k e hk
              simp only [KeyDir.get_set] at hk
              split at hk
              · cases hk
                simp only [NewKeyEntry, headerSize]
                omega
              · have := hent k e hk
                simp only [headerSize] at this ⊢
                omega)
            refine ⟨hstep.1, ?_⟩
            have h2 := hstep.2
            simp only [List.length_drop, headerSize] at h2
            omega

/-- The store `NewBitcaskStore` returns is bounded, whatever the file holds. -/
theorem NewBitcaskStore_bounded (disk : Option (List Byte)) (b0 : BitcaskStore)
    (hnew : NewBitcaskStore disk = Run.ok b0) : Bounded b0 := by
  cases disk with
  | none =>
    simp only [NewBitcaskStore, Run.ok.injEq] at hnew
    subst hnew
    exact ⟨Nat.le_refl _, fun key e h => by simp [KeyDir.get] at h⟩
  | some content =>
    simp only [NewBitcaskStore, BitcaskStore.initKeyDir] at hnew
    cases hrun : initKeyDirLoop content.length content (BitcaskStore.mk [] [] 0) with
    | ok b1 =>
      simp only [hrun, Run.ok.injEq] at hnew
      subst hnew
      have h := initKeyDirLoop_bounded _ _ _ _ hrun (fun key e h => by simp [KeyDir.get] at h)
      refine ⟨?_, h.1⟩
      have h2 := h.2
      simp only [Nat.zero_add] at h2
      exact h2
    | panicked => simp only [hrun] at hnew; cases hnew
    | outOfFuel => simp only [hrun] at hnew; cases hnew

/-- A call of `Set` that returns and whose write completes in full keeps the
store bounded. -/
theorem Set_bounded (b b1 : BitcaskStore) (now : Int) (accepted : Nat) (key value : List Byte)
    (hb : Bounded b) (hfull : (SetCall.mk now accepted key value).WritesInFull)
    (hset : b.Set now accepted key value = some b1) : Bounded b1 := by
  simp only [SetCall.WritesInFull, headerSize] at hfull
  rw [Set_eq] at hset
  split at hset
  · simp only [Option.some.injEq] at hset
    subst hset
    obtain ⟨hcur, hent⟩ := hb
    have hk := uint32_le key.length
    have hv := uint32_le value.length
    refine ⟨?_, ?_⟩
    · simp only [List.length_append, List.length_take, encodeHeader_length,
        Nat.min_eq_left hk, Nat.min_eq_left hv]
      omega
    · intro k e hk
      simp only [KeyDir.get_set] at hk
      split at hk
      · cases hk
        simp only [NewKeyEntry, headerSize]
        omega
      · have := hent k e hk
        simp only [headerSize] at this ⊢
        omega
  · cases hset

theorem Sets_bounded (calls : List SetCall) (b b1 : BitcaskStore) (hb : Bounded b)
    (hfull : ∀ c ∈ calls, c.WritesInFull) (hsets : b.Sets calls = some b1) : Bounded b1 := by
  induction calls generalizing b with
  | nil =>
    simp only [BitcaskStore.Sets, Option.some.injEq] at hsets
    subst hsets
    exact hb
  | cons c cs ih =>
    simp only [BitcaskStore.Sets] at hsets
    cases hset : b.Set c.now c.accepted c.key c.value with
    | none => simp [hset] at hsets
    | some b2 =>
      simp only [hset] at hsets
      exact ih b2 (Set_bounded b b2 _ _ _ _ hb (hfull c (List.mem_cons_self _ _)) hset)
        (fun x hx => hfull x (List.mem_cons_of_mem _ hx)) hsets

/-! ## The claims -/

/-- C1. Record round trip: for a `uint32` timestamp and a key and a value with
`12 + len(key) + len(value) < 2^32`, `encodeKV` returns a record and `decodeKV`
of its bytes is exactly the timestamp, the key and the value. -/
theorem C1_decodeKV_encodeKV (timestamp : Nat) (key value : List Byte)
    (hts : timestamp < 4294967296)
    (hlen : 12 + key.length + value.length < 4294967296) :
    (encodeKV timestamp key value).bind (fun r => decodeKV r.2)
      = some (timestamp, key, value) := by
  rw [encodeKV_fits timestamp key value hlen, Option.some_bind]
  exact decodeKV_record timestamp value.length key value hts (by omega) (by omega)

/-- Witness of C1 at timestamp 258, key "ab" and value "c". -/
theorem C1_decodeKV_encodeKV_witness :
    (encodeKV 258 [97, 98] [99]).bind (fun r => decodeKV r.2) = some (258, [97, 98], [99]) :=
  C1_decodeKV_encodeKV 258 [97, 98] [99] (by decide) (by decide)

/-- C2. Write-then-read: in a store opened by `NewBitcaskStore` on a path with
no file, after any sequence of earlier calls of `Set` that returned (whatever
part of their records was written), a call `Set(key, value)` whose record is
shorter than `2^32` bytes and whose write completes in full returns, and
`Get(key)` right after it returns `value`.  It holds for the empty key too. -/
theorem C2_set_then_get (earlier : List SetCall) (b0 b : BitcaskStore)
    (hnew : NewBitcaskStore none = Run.ok b0) (hearlier : b0.Sets earlier = some b)
    (now : Int) (accepted : Nat) (key value : List Byte)
    (hlen : 12 + key.length + value.length < 4294967296)
    (hfull : 12 + key.length + value.length ≤ accepted) :
    ∃ b1, b.Set now accepted key value = some b1 ∧ b1.Get key = some value := by
  have hb0 : b0 = BitcaskStore.mk [] [] 0 := by
    simp only [NewBitcaskStore, Run.ok.injEq] at hnew
    exact hnew.symm
  subst hb0
  have hsync : b.lastWrittenPos = b.file.length := Sets_cursor earlier _ b rfl hearlier
  refine ⟨_, Set_complete b now accepted key value hlen hfull, ?_⟩
  apply Get_of_recordAt _ key value
    (NewKeyEntry (12 + key.length + value.length) b.lastWrittenPos (uint32OfInt now))
  · exact KeyDir.get_set_self _ _ _
  · rw [hsync]
    exact RecordAt_end b.file _ key value (uint32OfInt_lt now) hlen

/-- Witness of C2: after `Set("a", "x")` and `Set("b", "y")` on a new store,
`Set("a", "z")` followed by `Get("a")`. -/
theorem C2_set_then_get_witness :
    NewBitcaskStore none = Run.ok (BitcaskStore.mk [] [] 0) ∧
    (BitcaskStore.mk [] [] 0).Sets [⟨1, 100, [97], [120]⟩, ⟨2, 100, [98], [121]⟩]
      = some (BitcaskStore.mk
          [0, 0, 0, 1, 0, 0, 0, 1, 0, 0, 0, 1, 97, 120, 0, 0, 0, 2, 0, 0, 0, 1, 0, 0, 0, 1, 98, 121]
          [([97], ⟨14, 0, 1⟩), ([98], ⟨14, 14, 2⟩)] 28) ∧
    ∃ b1, (BitcaskStore.mk
          [0, 0, 0, 1, 0, 0, 0, 1, 0, 0, 0, 1, 97, 120, 0, 0, 0, 2, 0, 0, 0, 1, 0, 0, 0, 1, 98, 121]
          [([97], ⟨14, 0, 1⟩), ([98], ⟨14, 14, 2⟩)] 28).Set 3 100 [97] [122] = some b1 ∧
      b1.Get [97] = some [122] :=
  ⟨rfl, by decide,
    C2_set_then_get [⟨1, 100, [97], [120]⟩, ⟨2, 100, [98], [121]⟩] (BitcaskStore.mk [] [] 0) _
      rfl (by decide) 3 100 [97] [122] (by decide) (by decide)⟩

/-- C3. Persistence across restart: a store opened on a path with no file,
any sequence of calls of `Set` whose records are shorter than `2^32` bytes and
whose writes complete in full, `Close`, and a store opened on the same file:
every step returns, and in the second store `Get(key)` returns, for every key
that was set, the value of the last call that set it. -/
theorem C3_persistence_across_restart (calls : List SetCall)
    (hall : ∀ c ∈ calls, c.Complete) (closeErr : Bool) :
    ∃ b0 b b1, NewBitcaskStore none = Run.ok b0 ∧ b0.Sets calls = some b ∧
      NewBitcaskStore (some (b.Close closeErr).2.file) = Run.ok b1 ∧
      ∀ key value, lastSet calls key = some value → b1.Get key = some value := by
  obtain ⟨b, hsets, hopen, hholds⟩ := reopen_after_Sets calls hall closeErr
  exact ⟨_, b, b, rfl, hsets, hopen, fun key value h => Holds_get b _ hholds key value h⟩

/-- Witness of C3: `Set("a", "x")`, `Set("b", "y")`, `Set("a", "z")`. -/
theorem C3_persistence_across_restart_witness :
    (∀ c ∈ ([⟨1, 100, [97], [120]⟩, ⟨2, 100, [98], [121]⟩, ⟨3, 100, [97], [122]⟩] :
        List SetCall), c.Complete) ∧
    ∃ b0 b b1, NewBitcaskStore none = Run.ok b0 ∧
      b0.Sets [⟨1, 100, [97], [120]⟩, ⟨2, 100, [98], [121]⟩, ⟨3, 100, [97], [122]⟩] = some b ∧
      NewBitcaskStore (some (b.Close false).2.file) = Run.ok b1 ∧
      ∀ key value,
        lastSet [⟨1, 100, [97], [120]⟩, ⟨2, 100, [98], [121]⟩, ⟨3, 100, [97], [122]⟩] key
          = some value → b1.Get key = some value :=
  ⟨by decide, C3_persistence_across_restart _ (by decide) false⟩

/-- C4 at its failing input. The file holds the record of ("a", "b") and the
first three bytes of a record whose write was cut short.  Recovery completes
with the cursor at 14, the end of the complete record, while the file is 17
bytes long.  `Set("c", "d")` then appends its record at offset 17 (the file is
opened with `O_APPEND`) and indexes it at offset 14: the 14 bytes the entry of
"c" locates are not a record of "c", `decodeKV` panics on them, and so does
`Get("c")`. -/
theorem C4_key_invariant_fails_after_truncated_tail :
    NewBitcaskStore (some [0, 0, 0, 5, 0, 0, 0, 1, 0, 0, 0, 1, 97, 98, 0, 0, 0])
      = Run.ok (BitcaskStore.mk [0, 0, 0, 5, 0, 0, 0, 1, 0, 0, 0, 1, 97, 98, 0, 0, 0]
          [([97], ⟨14, 0, 5⟩)] 14) ∧
    (BitcaskStore.mk [0, 0, 0, 5, 0, 0, 0, 1, 0, 0, 0, 1, 97, 98, 0, 0, 0]
        [([97], ⟨14, 0, 5⟩)] 14).Set 6 100 [99] [100]
      = some (BitcaskStore.mk
          [0, 0, 0, 5, 0, 0, 0, 1, 0, 0, 0, 1, 97, 98, 0, 0, 0,
           0, 0, 0, 6, 0, 0, 0, 1, 0, 0, 0, 1, 99, 100]
          [([97], ⟨14, 0, 5⟩), ([99], ⟨14, 14, 6⟩)] 28) ∧
    ReadAt [0, 0, 0, 5, 0, 0, 0, 1, 0, 0, 0, 1, 97, 98, 0, 0, 0,
            0, 0, 0, 6, 0, 0, 0, 1, 0, 0, 0, 1, 99, 100] (make 14) 14
      = [0, 0, 0, 0, 0, 0, 6, 0, 0, 0, 1, 0, 0, 0] ∧
    decodeKV [0, 0, 0, 0, 0, 0, 6, 0, 0, 0, 1, 0, 0, 0] = none ∧
    (BitcaskStore.mk
        [0, 0, 0, 5, 0, 0, 0, 1, 0, 0, 0, 1, 97, 98, 0, 0, 0,
         0, 0, 0, 6, 0, 0, 0, 1, 0, 0, 0, 1, 99, 100]
        [([97], ⟨14, 0, 5⟩), ([99], ⟨14, 14, 6⟩)] 28).Get [99] = none :=
  ⟨by decide, by decide, by decide, by decide, by decide⟩

/-- C5 as stated fails: nothing in it says that the writes complete or that
the records are shorter than `2^32` bytes.  On a new store, `Set("k", [1])`
written in full and then `Set("k", [2])` whose write stores no byte (the error
of `file.Write` is dropped) leave an entry for "k" at offset 14 of a 14-byte
file, and `Get("k")` returns two zero bytes, not the value `[2]`.  And with a
key of `2^32 - 12` bytes already the first call `Set(k, [1])` panics. -/
theorem C5_overwrite_fails_on_short_write :
    NewBitcaskStore none = Run.ok (BitcaskStore.mk [] [] 0) ∧
    (BitcaskStore.mk [] [] 0).Sets [⟨0, 100, [107], [1]⟩, ⟨0, 0, [107], [2]⟩]
      = some (BitcaskStore.mk [0, 0, 0, 0, 0, 0, 0, 1, 0, 0, 0, 1, 107, 1]
          [([107], ⟨14, 14, 0⟩)] 14) ∧
    (BitcaskStore.mk [0, 0, 0, 0, 0, 0, 0, 1, 0, 0, 0, 1, 107, 1]
        [([107], ⟨14, 14, 0⟩)] 14).Get [107] = some [0, 0] ∧
    (BitcaskStore.mk [0, 0, 0, 0, 0, 0, 0, 1, 0, 0, 0, 1, 107, 1]
        [([107], ⟨14, 14, 0⟩)] 14).Get [107] ≠ some [2] ∧
    (BitcaskStore.mk [] [] 0).Set 0 4294967297 (List.replicate 4294967284 0) [1] = none :=
  ⟨by decide, by decide, by decide, by decide,
    Set_oversize _ _ _ _ _ (by rw [length_replicate_zero]; decide) (by decide)
      (by rw [length_replicate_zero]; decide)⟩

/-- C5, amended. Overwrite (last write wins): on a store opened on a path with
no file, `Set(k, v1)`, any calls of `Set` in between and `Set(k, v2)`, all with
records shorter than `2^32` bytes and writes that complete in full, return;
afterwards `Get(k)` returns `v2`, the log file is the record of `(k, v1)`, the
records of the calls in between and the record of `(k, v2)` in this order, and
`keyDir` holds exactly one pair for `k`, whose entry has the size of the later
record and, as `entryPos`, the offset of the later record. -/
theorem C5_overwrite (now1 now2 : Int) (accepted1 accepted2 : Nat) (k v1 v2 : List Byte)
    (between : List SetCall)
    (h1 : (SetCall.mk now1 accepted1 k v1).Complete)
    (hbetween : ∀ c ∈ between, c.Complete)
    (h2 : (SetCall.mk now2 accepted2 k v2).Complete) :
    ∃ b0 b size1 r1 size2 r2,
      NewBitcaskStore none = Run.ok b0 ∧
      b0.Sets (⟨now1, accepted1, k, v1⟩ :: (between ++ [⟨now2, accepted2, k, v2⟩])) = some b ∧
      b.Get k = some v2 ∧
      encodeKV (uint32OfInt now1) k v1 = some (size1, r1) ∧
      encodeKV (uint32OfInt now2) k v2 = some (size2, r2) ∧
      b.file = r1 ++ logOf between ++ r2 ∧
      b.keyDir.filter (fun p => decide (p.1 = k))
        = [(k, NewKeyEntry size2 (r1.length + (logOf between).length) (uint32OfInt now2))] := by
  have hfirst : ∀ c ∈ (SetCall.mk now1 accepted1 k v1) :: between, c.Complete := by
    intro c hc
    rcases List.mem_cons.mp hc with rfl | hc
    · exact h1
    · exact hbetween c hc
  obtain ⟨bm, hsetsm, hfilem, -⟩ := replay_Sets _ hfirst (BitcaskStore.mk [] [] 0)
  have hsync : bm.lastWrittenPos = bm.file.length := Sets_cursor _ _ bm rfl hsetsm
  obtain ⟨bm2, hsetsm2, hholdsm⟩ := Sets_holds _ (BitcaskStore.mk [] [] 0) _ Holds_fresh hfirst
  rw [hsetsm] at hsetsm2
  cases hsetsm2
  obtain ⟨b, hset, hholds⟩ := Set_holds bm _ now2 accepted2 k v2 hholdsm h2.1 h2.2
  have hset2 := Set_complete bm now2 accepted2 k v2 h2.1 h2.2
  rw [hset] at hset2
  simp only [Option.some.injEq] at hset2
  have hget : b.keyDir.get k
      = some (NewKeyEntry (12 + k.length + v2.length) bm.lastWrittenPos (uint32OfInt now2)) := by
    rw [hset2]
    exact KeyDir.get_set_self _ _ _
  have hr1 : (encodeHeader (uint32OfInt now1) k.length v1.length ++ k ++ v1).length
      = 12 + k.length + v1.length := by
    simp only [List.length_append, encodeHeader_length]
  have hlog := logOf_cons_complete (SetCall.mk now1 accepted1 k v1) between h1
  simp only [List.nil_append] at hfilem
  refine ⟨BitcaskStore.mk [] [] 0, b, _, _, _, _, rfl, ?_, ?_, encodeKV_fits _ k v1 h1.1,
    encodeKV_fits _ k v2 h2.1, ?_, ?_⟩
  · have happ := Sets_append ((SetCall.mk now1 accepted1 k v1) :: between)
      [⟨now2, accepted2, k, v2⟩] (BitcaskStore.mk [] [] 0)
    rw [hsetsm] at happ
    simp only [Option.some_bind, BitcaskStore.Sets, hset] at happ
    exact happ
  · exact Holds_get b _ hholds k v2 (by simp)
  · rw [hset2]
    simp only [hfilem, hlog]
  · rw [KeyDir.filter_of_get b.keyDir k _ hholds.2.1 hget, hsync, hfilem, hlog]
    simp only [List.length_append, hr1]

/-- Witness of C5: `Set("k", "a")`, `Set("j", "b")`, `Set("k", "c")`. -/
theorem C5_overwrite_witness :
    (SetCall.mk 1 100 [107] [97]).Complete ∧
    (∀ c ∈ ([⟨2, 100, [106], [98]⟩] : List SetCall), c.Complete) ∧
    (SetCall.mk 3 100 [107] [99]).Complete ∧
    ∃ b0 b size1 r1 size2 r2,
      NewBitcaskStore none = Run.ok b0 ∧
      b0.Sets (⟨1, 100, [107], [97]⟩ :: ([⟨2, 100, [106], [98]⟩] ++ [⟨3, 100, [107], [99]⟩]))
        = some b ∧
      b.Get [107] = some [99] ∧
      encodeKV (uint32OfInt 1) [107] [97] = some (size1, r1) ∧
      encodeKV (uint32OfInt 3) [107] [99] = some (size2, r2) ∧
      b.file = r1 ++ logOf [⟨2, 100, [106], [98]⟩] ++ r2 ∧
      b.keyDir.filter (fun p => decide (p.1 = [107]))
        = [([107], NewKeyEntry size2 (r1.length + (logOf [⟨2, 100, [106], [98]⟩]).length)
            (uint32OfInt 3))] :=
  ⟨by decide, by decide, by decide,
    C5_overwrite 1 3 100 100 [107] [97] [99] [⟨2, 100, [106], [98]⟩]
      (by decide) (by decide) (by decide)⟩

/-- C6. Truncated tail tolerance: on a log file that is a sequence of records
followed by a start of one more record that is not the whole record,
`initKeyDir` returns, and it returns the very store (same `keyDir`, same
`lastWrittenPos`) it returns on the sequence of records alone: the cursor has
moved over the records and no further, and the key of every record is in
`keyDir`.  Every record is shorter than `2^32` bytes, being what `encodeKV`
returned. -/
theorem C6_truncated_tail (rs : List (List Byte)) (hrs : ∀ r ∈ rs, IsRecord r)
    (r p : List Byte) (hr : IsRecord r) (hp : p <+: r) (hlt : p.length < r.length)
    (b : BitcaskStore) :
    ∃ b1, b.initKeyDir rs.flatten = Run.ok b1 ∧ b.initKeyDir (rs.flatten ++ p) = Run.ok b1 ∧
      b1.lastWrittenPos = b.lastWrittenPos + rs.flatten.length ∧
      ∀ r ∈ rs, ∀ ts key value, decodeKV r = some (ts, key, value) →
        (b1.keyDir.get key).isSome := by
  obtain ⟨b1, hb1, hpos, -, hidx⟩ := initKeyDirLoop_records rs hrs b
  have hlen := flatten_length_ge rs hrs
  refine ⟨b1, ?_, ?_, hpos, hidx⟩
  · have h := hb1 (rs.flatten.length - rs.length) []
    rw [Nat.sub_add_cancel (by omega), List.append_nil, initKeyDirLoop_nil] at h
    exact h
  · have h := hb1 (rs.flatten.length - rs.length + p.length) p
    have hfuel : rs.flatten.length - rs.length + p.length + rs.length
        = (rs.flatten ++ p).length := by
      rw [List.length_append]
      omega
    rw [hfuel, initKeyDirLoop_truncated _ p r b1 hr hp hlt (by omega)] at h
    exact h

/-- Witness of C6: the record of ("a", "b") followed by the record of
("c", "d") without its last byte. -/
theorem C6_truncated_tail_witness :
    ∃ b1,
      (BitcaskStore.mk [] [] 0).initKeyDir
          [[0, 0, 0, 5, 0, 0, 0, 1, 0, 0, 0, 1, 97, 98]].flatten = Run.ok b1 ∧
      (BitcaskStore.mk [] [] 0).initKeyDir
          ([[0, 0, 0, 5, 0, 0, 0, 1, 0, 0, 0, 1, 97, 98]].flatten
            ++ [0, 0, 0, 6, 0, 0, 0, 1, 0, 0, 0, 1, 99]) = Run.ok b1 ∧
      b1.lastWrittenPos = (BitcaskStore.mk [] [] 0).lastWrittenPos
        + [[0, 0, 0, 5, 0, 0, 0, 1, 0, 0, 0, 1, (97 : Byte), 98]].flatten.length ∧
      ∀ r ∈ [[0, 0, 0, 5, 0, 0, 0, 1, 0, 0, 0, 1, (97 : Byte), 98]],
        ∀ ts key value, decodeKV r = some (ts, key, value) → (b1.keyDir.get key).isSome :=
  C6_truncated_tail [[0, 0, 0, 5, 0, 0, 0, 1, 0, 0, 0, 1, 97, 98]]
    (by
      intro r hr
      rw [List.mem_singleton] at hr
      subst hr
      exact ⟨5, [97], [98], by decide, by decide⟩)
    [0, 0, 0, 6, 0, 0, 0, 1, 0, 0, 0, 1, 99, 100]
    [0, 0, 0, 6, 0, 0, 0, 1, 0, 0, 0, 1, 99]
    ⟨6, [99], [100], by decide, by decide⟩ ⟨[100], rfl⟩ (by decide) (BitcaskStore.mk [] [] 0)

/-- C7 at its failing input. On the file of C4, the record of ("a", "b")
followed by three bytes of a record cut short, `NewBitcaskStore` returns a
store whose `lastWrittenPos` is 14 while the file is 17 bytes long; after
`Set("c", "d")`, written in full, `lastWrittenPos` is 28 and the file is 31
bytes long.  The cursor is not the offset at which the append landed. -/
theorem C7_cursor_behind_file_after_truncated_tail :
    ∃ b0 b1,
      NewBitcaskStore (some [0, 0, 0, 5, 0, 0, 0, 1, 0, 0, 0, 1, 97, 98, 0, 0, 0]) = Run.ok b0 ∧
      b0.lastWrittenPos = 14 ∧ b0.file.length = 17 ∧
      b0.Set 6 100 [99] [100] = some b1 ∧
      b1.lastWrittenPos = 28 ∧ b1.file.length = 31 :=
  ⟨BitcaskStore.mk [0, 0, 0, 5, 0, 0, 0, 1, 0, 0, 0, 1, 97, 98, 0, 0, 0] [([97], ⟨14, 0, 5⟩)] 14,
    BitcaskStore.mk
      [0, 0, 0, 5, 0, 0, 0, 1, 0, 0, 0, 1, 97, 98, 0, 0, 0,
       0, 0, 0, 6, 0, 0, 0, 1, 0, 0, 0, 1, 99, 100]
      [([97], ⟨14, 0, 5⟩), ([99], ⟨14, 14, 6⟩)] 28,
    by decide, rfl, rfl, by decide, rfl, rfl⟩

/-- C8 at its failing input. A 12-byte file whose header declares
`key_size = 2^32 - 1` and `value_size = 1`: the sum `keySize + valueSize` is
formed in `uint32` and wraps to 0, the read of the empty body succeeds, and
`decodeKVNoHeader` panics on `data[:keySize]`.  Recovery does not end as on a
cut-short tail. -/
theorem C8_initKeyDir_panics_on_wrapping_sizes :
    decodeHeader [0, 0, 0, 0, 255, 255, 255, 255, 0, 0, 0, 1] = some (0, 4294967295, 1) ∧
    uint32 (4294967295 + 1) = 0 ∧
    decodeKVNoHeader [] 4294967295 = none ∧
    (BitcaskStore.mk [] [] 0).initKeyDir [0, 0, 0, 0, 255, 255, 255, 255, 0, 0, 0, 1]
      = Run.panicked ∧
    NewBitcaskStore (some [0, 0, 0, 0, 255, 255, 255, 255, 0, 0, 0, 1]) = Run.panicked :=
  ⟨by decide, by decide, by decide, by decide, by decide⟩

/-- C9 at its failing input. A key of `2^32 - 12` bytes and an empty value
are both within the documented field limit of `2^32 - 1` bytes, yet `encodeKV`
panics: `keyEnd`, computed in `uint32`, wraps to `0` and the slice expression
`kv[headerSize:keyEnd]` is out of range. -/
theorem C9_encodeKV_panics_within_field_limits :
    (List.replicate 4294967284 (0 : Byte)).length ≤ 4294967295 ∧
      encodeKV 0 (List.replicate 4294967284 0) [] = none := by
  refine ⟨by rw [List.length_replicate]; decide, ?_⟩
  rw [encodeKV_eq, List.length_replicate]
  rfl

/-- C10 as stated fails: nothing in it says that the writes complete or that
the records are shorter than `2^32` bytes.  On a new store, `Set("k", "v")`
written in full and then `Set("k", "")` whose write stores no byte leave the
file with the record of ("k", "v") alone; the store opened on it after `Close`
returns "v" for `Get("k")`, not the empty string.  And with a key of
`2^32 - 12` bytes already the first call `Set(k, "v")` panics. -/
theorem C10_delete_lost_on_short_write :
    NewBitcaskStore none = Run.ok (BitcaskStore.mk [] [] 0) ∧
    (BitcaskStore.mk [] [] 0).Sets [⟨0, 100, [107], [118]⟩, ⟨0, 0, [107], []⟩]
      = some (BitcaskStore.mk [0, 0, 0, 0, 0, 0, 0, 1, 0, 0, 0, 1, 107, 118]
          [([107], ⟨13, 14, 0⟩)] 14) ∧
    NewBitcaskStore (some ((BitcaskStore.mk [0, 0, 0, 0, 0, 0, 0, 1, 0, 0, 0, 1, 107, 118]
          [([107], ⟨13, 14, 0⟩)] 14).Close false).2.file)
      = Run.ok (BitcaskStore.mk [0, 0, 0, 0, 0, 0, 0, 1, 0, 0, 0, 1, 107, 118]
          [([107], ⟨14, 0, 0⟩)] 14) ∧
    (BitcaskStore.mk [0, 0, 0, 0, 0, 0, 0, 1, 0, 0, 0, 1, 107, 118]
        [([107], ⟨14, 0, 0⟩)] 14).Get [107] = some [118] ∧
    (BitcaskStore.mk [0, 0, 0, 0, 0, 0, 0, 1, 0, 0, 0, 1, 107, 118]
        [([107], ⟨14, 0, 0⟩)] 14).Get [107] ≠ some [] ∧
    (BitcaskStore.mk [] [] 0).Set 0 4294967297 (List.replicate 4294967284 0) [118] = none :=
  ⟨by decide, by decide, by decide, by decide, by decide,
    Set_oversize _ _ _ _ _ (by rw [length_replicate_zero]; decide) (by decide)
      (by rw [length_replicate_zero]; decide)⟩

/-- C10, amended. Empty-value-as-delete: on a store opened on a path with no
file, `Set(k, v)` and `Set(k, "")`, both with records shorter than `2^32`
bytes and writes that complete in full, `Close`, and a store opened on the
same file: every step returns, and in the second store `Get(k)` returns the
empty string, which is what `Get` returns there for every key that is not in
`keyDir`. -/
theorem C10_empty_value_as_delete (now1 now2 : Int) (accepted1 accepted2 : Nat)
    (k v : List Byte)
    (h1 : (SetCall.mk now1 accepted1 k v).Complete)
    (h2 : (SetCall.mk now2 accepted2 k []).Complete) (closeErr : Bool) :
    ∃ b0 b b1, NewBitcaskStore none = Run.ok b0 ∧
      b0.Sets [⟨now1, accepted1, k, v⟩, ⟨now2, accepted2, k, []⟩] = some b ∧
      NewBitcaskStore (some (b.Close closeErr).2.file) = Run.ok b1 ∧
      b1.Get k = some [] ∧
      ∀ other, b1.keyDir.get other = none → b1.Get other = some [] := by
  have hall : ∀ c ∈ ([⟨now1, accepted1, k, v⟩, ⟨now2, accepted2, k, []⟩] : List SetCall),
      c.Complete := by
    intro c hc
    simp only [List.mem_cons, List.mem_singleton, List.not_mem_nil, or_false] at hc
    rcases hc with rfl | rfl
    · exact h1
    · exact h2
  obtain ⟨b, hsets, hopen, hholds⟩ := reopen_after_Sets _ hall closeErr
  refine ⟨_, b, b, rfl, hsets, hopen, ?_, ?_⟩
  · apply Holds_get b _ hholds k []
    simp [lastSet]
  · intro other hother
    simp only [BitcaskStore.Get, hother]

/-- Witness of C10: `Set("k", "v")` and `Set("k", "")`. -/
theorem C10_empty_value_as_delete_witness :
    (SetCall.mk 1 100 [107] [118]).Complete ∧ (SetCall.mk 2 100 [107] []).Complete ∧
    ∃ b0 b b1, NewBitcaskStore none = Run.ok b0 ∧
      b0.Sets [⟨1, 100, [107], [118]⟩, ⟨2, 100, [107], []⟩] = some b ∧
      NewBitcaskStore (some (b.Close true).2.file) = Run.ok b1 ∧
      b1.Get [107] = some [] ∧
      ∀ other, b1.keyDir.get other = none → b1.Get other = some [] :=
  ⟨by decide, by decide, C10_empty_value_as_delete 1 2 100 100 [107] [118]
    (by decide) (by decide) true⟩

/-- C11. Missing key: in every store, `Get(key)` for a key that is not in
`keyDir` returns the empty string, and it returns it whatever the file holds,
so the file is not read.  The method assigns to no field of the store and
writes no byte, which is why `Get` has no store among its results: the file,
`keyDir` and `lastWrittenPos` are after the call what they were before. -/
theorem C11_get_missing_key (b : BitcaskStore) (key : List Byte)
    (hmissing : b.keyDir.get key = none) :
    b.Get key = some [] ∧
      ∀ content : List Byte, ({ b with file := content } : BitcaskStore).Get key = some [] := by
  refine ⟨?_, fun content => ?_⟩
  · simp only [BitcaskStore.Get, hmissing]
  · simp only [BitcaskStore.Get, hmissing]

/-- Witness of C11: a store that indexes "a", asked for "b". -/
theorem C11_get_missing_key_witness :
    (BitcaskStore.mk [0, 0, 0, 1, 0, 0, 0, 1, 0, 0, 0, 1, 97, 120] [([97], ⟨14, 0, 1⟩)] 14).Get [98]
      = some [] ∧
    ∀ content : List Byte,
      ({ (BitcaskStore.mk [0, 0, 0, 1, 0, 0, 0, 1, 0, 0, 0, 1, 97, 120] [([97], ⟨14, 0, 1⟩)] 14)
          with file := content } : BitcaskStore).Get [98] = some [] :=
  C11_get_missing_key _ [98] (by decide)

/-- C12. Header layout: for `uint32` values `timestamp`, `keySize` and
`valueSize`, `encodeHeader` returns exactly 12 bytes; bytes 0-3 denote
`timestamp` in big-endian order, bytes 4-7 `keySize` and bytes 8-11
`valueSize`. -/
theorem C12_encodeHeader_layout (timestamp keySize valueSize : Nat)
    (hts : timestamp < 4294967296) (hks : keySize < 4294967296)
    (hvs : valueSize < 4294967296) :
    (encodeHeader timestamp keySize valueSize).length = 12 ∧
    bigEndian ((encodeHeader timestamp keySize valueSize).take 4) = timestamp ∧
    bigEndian (((encodeHeader timestamp keySize valueSize).drop 4).take 4) = keySize ∧
    bigEndian (((encodeHeader timestamp keySize valueSize).drop 8).take 4) = valueSize := by
  refine ⟨encodeHeader_length _ _ _, ?_, ?_, ?_⟩
  · rw [encodeHeader_eq]
    simp only [List.take_succ_cons, List.take_zero]
    rw [bigEndian_four, uint32_bytes _ hts]
  · rw [encodeHeader_eq]
    simp only [List.drop_succ_cons, List.drop_zero, List.take_succ_cons, List.take_zero]
    rw [bigEndian_four, uint32_bytes _ hks]
  · rw [encodeHeader_eq]
    simp only [List.drop_succ_cons, List.drop_zero, List.take_succ_cons, List.take_zero,
      List.take_nil]
    rw [bigEndian_four, uint32_bytes _ hvs]

/-- Witness of C12: timestamp `0x01020304`, key size 258, value size `2^32 - 1`. -/
theorem C12_encodeHeader_layout_witness :
    (encodeHeader 16909060 258 4294967295).length = 12 ∧
    bigEndian ((encodeHeader 16909060 258 4294967295).take 4) = 16909060 ∧
    bigEndian (((encodeHeader 16909060 258 4294967295).drop 4).take 4) = 258 ∧
    bigEndian (((encodeHeader 16909060 258 4294967295).drop 8).take 4) = 4294967295 :=
  C12_encodeHeader_layout 16909060 258 4294967295 (by decide) (by decide) (by decide)

/-- C13. Header round trip: for `uint32` values `timestamp`, `keySize` and
`valueSize`, `decodeHeader` of the bytes `encodeHeader` returns is exactly
`(timestamp, keySize, valueSize)`. -/
theorem C13_decodeHeader_encodeHeader (timestamp keySize valueSize : Nat)
    (hts : timestamp < 4294967296) (hks : keySize < 4294967296)
    (hvs : valueSize < 4294967296) :
    decodeHeader (encodeHeader timestamp keySize valueSize)
      = some (timestamp, keySize, valueSize) := by
  have h := decodeHeader_encodeHeader_append timestamp keySize valueSize [] hts hks hvs
  rwa [List.append_nil] at h

/-- Witness of C13: timestamp `0x01020304`, key size 258, value size `2^32 - 1`. -/
theorem C13_decodeHeader_encodeHeader_witness :
    decodeHeader (encodeHeader 16909060 258 4294967295) = some (16909060, 258, 4294967295) :=
  C13_decodeHeader_encodeHeader 16909060 258 4294967295 (by decide) (by decide) (by decide)

/-- C14. The function `decodeHeader` panics exactly on a byte sequence of fewer
than 12 bytes; on one of at least 12 bytes it returns, and it returns the same
on every byte sequence with the same first 12 bytes. -/
theorem C14_decodeHeader_fails_on_short_input (header : List Byte) :
    (decodeHeader header = none ↔ header.length < 12) ∧
    (12 ≤ header.length → ∃ r, decodeHeader header = some r ∧
      ∀ other : List Byte, other.take 12 = header.take 12 → decodeHeader other = some r) := by
  have hlong : 12 ≤ header.length → ∃ r, decodeHeader header = some r ∧
      ∀ other : List Byte, other.take 12 = header.take 12 → decodeHeader other = some r := by
    intro h
    obtain ⟨r, hr, htake⟩ := decodeHeader_take header h
    refine ⟨r, hr, fun other hother => ?_⟩
    have hlen : 12 ≤ other.length := by
      have h1 : (other.take 12).length = 12 := by
        rw [hother, List.length_take]
        omega
      rw [List.length_take] at h1
      omega
    obtain ⟨r2, hr2, htake2⟩ := decodeHeader_take other hlen
    rw [hother, htake] at htake2
    rw [hr2, htake2]
  refine ⟨⟨fun hnone => ?_, decodeHeader_short header⟩, hlong⟩
  by_contra hnot
  obtain ⟨r, hr, -⟩ := hlong (by omega)
  rw [hnone] at hr
  cases hr

/-- Witness of C14: three bytes, and thirteen bytes against their first
twelve. -/
theorem C14_decodeHeader_fails_on_short_input_witness :
    decodeHeader [1, 2, 3] = none ∧
    ∃ r, decodeHeader [1, 2, 3, 4, 5, 6, 7, 8, 9, 10, 11, 12, 13] = some r ∧
      ∀ other : List Byte,
        other.take 12 = ([1, 2, 3, 4, 5, 6, 7, 8, 9, 10, 11, 12, 13] : List Byte).take 12 →
          decodeHeader other = some r :=
  ⟨(C14_decodeHeader_fails_on_short_input [1, 2, 3]).1.2 (by decide),
    (C14_decodeHeader_fails_on_short_input [1, 2, 3, 4, 5, 6, 7, 8, 9, 10, 11, 12, 13]).2
      (by decide)⟩

/-- C15. The method `Close` has inverted semantics: when `file.Close()`
reports no error it returns `false` and leaves the store as it is; when
`file.Close()` reports an error it returns `true`, and afterwards `keyDir` is
empty and `lastWrittenPos` is 0. -/
theorem C15_close_inverted (b : BitcaskStore) :
    b.Close false = (false, b) ∧
    (b.Close true).1 = true ∧ (b.Close true).2.keyDir = [] ∧
      (b.Close true).2.lastWrittenPos = 0 :=
  ⟨rfl, rfl, rfl, rfl⟩

/-- C16 as stated fails for a key of `2^32` bytes or more: `encodeKV` takes
`uint32(len(key))` as the key size.  With a key of exactly `2^32` bytes and an
empty value, `Set` returns, and the entry of the key has `entrySize` 12, not
`12 + len(key) + len(value)`. -/
theorem C16_entry_size_of_oversize_key :
    ∃ b1, (BitcaskStore.mk [] [] 0).Set 0 100 (List.replicate 4294967296 0) [] = some b1 ∧
      b1.keyDir.get (List.replicate 4294967296 0) = some ⟨12, 0, 0⟩ ∧
      b1.lastWrittenPos = 12 ∧
      12 ≠ 12 + (List.replicate 4294967296 (0 : Byte)).length + ([] : List Byte).length := by
  have hset := Set_eq (BitcaskStore.mk [] [] 0) 0 100 (List.replicate 4294967296 0) []
  rw [length_replicate_zero] at hset
  rw [if_pos (by decide)] at hset
  refine ⟨_, hset, ?_, ?_, ?_⟩
  · rw [KeyDir.get_set_self]
    rfl
  · rfl
  · rw [length_replicate_zero]
    decide

/-- C16, amended. Effect of `Set`: for every store with cursor `c`, every key
and value with `12 + len(key) + len(value) < 2^32` and every number `accepted`
of bytes the write can store, `Set` returns; with `size = 12 + len(key) +
len(value)` the length of the record `kv` and `n = min(size, accepted)` the
number of bytes written (`n = size` on a full write, `n < size` on a short
one), afterwards `keyDir[key]` is `{size, c, timestamp}` with the timestamp
the header of `kv` holds, `lastWrittenPos` is `c + n`, the entry of every
other key is what it was, and the file is the old file followed by the first
`n` bytes of `kv`. -/
theorem C16_set_effect (b : BitcaskStore) (now : Int) (accepted : Nat) (key value : List Byte)
    (hlen : 12 + key.length + value.length < 4294967296) :
    ∃ b1 kv,
      encodeKV (uint32OfInt now) key value = some (12 + key.length + value.length, kv) ∧
      kv.length = 12 + key.length + value.length ∧
      b.Set now accepted key value = some b1 ∧
      b1.keyDir.get key
        = some (NewKeyEntry (12 + key.length + value.length) b.lastWrittenPos (uint32OfInt now)) ∧
      decodeHeader kv = some (uint32OfInt now, key.length, value.length) ∧
      b1.lastWrittenPos = b.lastWrittenPos + min (12 + key.length + value.length) accepted ∧
      (∀ other, other ≠ key → b1.keyDir.get other = b.keyDir.get other) ∧
      b1.file = b.file ++ kv.take (min (12 + key.length + value.length) accepted) := by
  have hk : uint32 key.length = key.length := uint32_of_lt _ (by omega)
  have hv : uint32 value.length = value.length := uint32_of_lt _ (by omega)
  have hset := Set_eq b now accepted key value
  rw [hk, hv, if_pos hlen, List.take_length, List.take_length] at hset
  refine ⟨_, _, encodeKV_fits _ key value hlen, ?_, hset, KeyDir.get_set_self _ _ _, ?_, rfl,
    ?_, rfl⟩
  · simp only [List.length_append, encodeHeader_length]
  · rw [List.append_assoc]
    exact decodeHeader_encodeHeader_append _ _ _ _ (uint32OfInt_lt now) (by omega) (by omega)
  · intro other hother
    exact KeyDir.get_set_ne _ _ _ _ (Ne.symm hother)

/-- Witness of C16: `Set("k", "v")` on a store that indexes "a", with a write
that stores 5 of the 14 bytes. -/
theorem C16_set_effect_witness :
    ∃ b1 kv,
      encodeKV (uint32OfInt 7) [107] [118]
        = some (12 + ([107] : List Byte).length + ([118] : List Byte).length, kv) ∧
      kv.length = 12 + ([107] : List Byte).length + ([118] : List Byte).length ∧
      (BitcaskStore.mk [0, 0, 0, 1, 0, 0, 0, 1, 0, 0, 0, 1, 97, 120] [([97], ⟨14, 0, 1⟩)]
        14).Set 7 5 [107] [118] = some b1 ∧
      b1.keyDir.get [107]
        = some (NewKeyEntry (12 + ([107] : List Byte).length + ([118] : List Byte).length)
            (BitcaskStore.mk [0, 0, 0, 1, 0, 0, 0, 1, 0, 0, 0, 1, 97, 120] [([97], ⟨14, 0, 1⟩)]
              14).lastWrittenPos (uint32OfInt 7)) ∧
      decodeHeader kv
        = some (uint32OfInt 7, ([107] : List Byte).length, ([118] : List Byte).length) ∧
      b1.lastWrittenPos
        = (BitcaskStore.mk [0, 0, 0, 1, 0, 0, 0, 1, 0, 0, 0, 1, 97, 120] [([97], ⟨14, 0, 1⟩)]
            14).lastWrittenPos
          + min (12 + ([107] : List Byte).length + ([118] : List Byte).length) 5 ∧
      (∀ other, other ≠ [107] → b1.keyDir.get other
        = (BitcaskStore.mk [0, 0, 0, 1, 0, 0, 0, 1, 0, 0, 0, 1, 97, 120] [([97], ⟨14, 0, 1⟩)]
            14).keyDir.get other) ∧
      b1.file
        = (BitcaskStore.mk [0, 0, 0, 1, 0, 0, 0, 1, 0, 0, 0, 1, 97, 120] [([97], ⟨14, 0, 1⟩)]
            14).file
          ++ kv.take (min (12 + ([107] : List Byte).length + ([118] : List Byte).length) 5) :=
  C16_set_effect
    (BitcaskStore.mk [0, 0, 0, 1, 0, 0, 0, 1, 0, 0, 0, 1, 97, 120] [([97], ⟨14, 0, 1⟩)] 14)
    7 5 [107] [118] (by decide)

/-- C17. Replay re-derives the live index exactly: after any sequence of calls
of `Set` on a store opened on a path with no file, with records shorter than
`2^32` bytes and writes that complete in full, `initKeyDir` run from the empty
store on the log file returns a store with the `keyDir` of the live store (the
same keys, each with the same `entrySize`, `entryPos` and `timestamp`) and
with its `lastWrittenPos`, which is the length of the file. -/
theorem C17_replay_rederives_index (calls : List SetCall) (hall : ∀ c ∈ calls, c.Complete) :
    ∃ b0 b r, NewBitcaskStore none = Run.ok b0 ∧ b0.Sets calls = some b ∧
      (BitcaskStore.mk [] [] 0).initKeyDir b.file = Run.ok r ∧
      r.keyDir = b.keyDir ∧ r.lastWrittenPos = b.lastWrittenPos ∧
      b.lastWrittenPos = b.file.length := by
  obtain ⟨b, hsets, hfile, hreplay⟩ := replay_Sets calls hall (BitcaskStore.mk [] [] 0)
  have hlen := logOf_length_ge calls hall
  have hrun := hreplay ((logOf calls).length - calls.length) [] []
  rw [Nat.sub_add_cancel hlen, List.append_nil, initKeyDirLoop_nil] at hrun
  simp only [List.nil_append] at hfile
  refine ⟨_, b, BitcaskStore.mk [] b.keyDir b.lastWrittenPos, rfl, hsets, ?_, rfl, rfl,
    Sets_cursor calls _ b rfl hsets⟩
  simp only [BitcaskStore.initKeyDir, hfile]
  exact hrun

/-- Witness of C17: `Set("a", "x")`, `Set("b", "y")`, `Set("a", "z")`. -/
theorem C17_replay_rederives_index_witness :
    (∀ c ∈ ([⟨1, 100, [97], [120]⟩, ⟨2, 100, [98], [121]⟩, ⟨3, 100, [97], [122]⟩] :
        List SetCall), c.Complete) ∧
    ∃ b0 b r, NewBitcaskStore none = Run.ok b0 ∧
      b0.Sets [⟨1, 100, [97], [120]⟩, ⟨2, 100, [98], [121]⟩, ⟨3, 100, [97], [122]⟩] = some b ∧
      (BitcaskStore.mk [] [] 0).initKeyDir b.file = Run.ok r ∧
      r.keyDir = b.keyDir ∧ r.lastWrittenPos = b.lastWrittenPos ∧
      b.lastWrittenPos = b.file.length :=
  ⟨by decide, C17_replay_rederives_index _ (by decide)⟩

/-- C18. Index entries always lie inside the file: in every store reached by
`NewBitcaskStore` on a path with no file or with a file of any content on
which recovery completes, followed by any calls of `Set` that return and whose
writes complete in full, every entry of `keyDir` has `entryPos >= 0`,
`entrySize >= 12` and `entryPos + entrySize` at most the length of the file;
so the read `Get` issues for it fills the whole buffer with bytes of the
file. -/
theorem C18_entries_inside_file (disk : Option (List Byte)) (b0 b : BitcaskStore)
    (hnew : NewBitcaskStore disk = Run.ok b0) (calls : List SetCall)
    (hfull : ∀ c ∈ calls, c.WritesInFull) (hsets : b0.Sets calls = some b)
    (key : List Byte) (e : KeyEntry) (hget : b.keyDir.get key = some e) :
    0 ≤ e.entryPos ∧ 12 ≤ e.entrySize ∧ e.entryPos + e.entrySize ≤ b.file.length ∧
      ReadAt b.file (make e.entrySize) e.entryPos = (b.file.drop e.entryPos).take e.entrySize ∧
      ((b.file.drop e.entryPos).take e.entrySize).length = e.entrySize := by
  obtain ⟨hcur, hent⟩ := Sets_bounded calls b0 b (NewBitcaskStore_bounded disk b0 hnew) hfull hsets
  obtain ⟨hsize, hend⟩ := hent key e hget
  simp only [headerSize] at hsize
  have hin : e.entryPos + e.entrySize ≤ b.file.length := by omega
  refine ⟨Nat.zero_le _, hsize, hin, ReadAt_inside _ _ _ hin, ?_⟩
  rw [List.length_take, List.length_drop]
  omega

/-- Witness of C18: the file of C4, the record of ("a", "b") and three bytes
of a record cut short, then `Set("c", "d")`; the entry of "c". -/
theorem C18_entries_inside_file_witness :
    0 ≤ (KeyEntry.mk 14 14 6).entryPos ∧ 12 ≤ (KeyEntry.mk 14 14 6).entrySize ∧
      (KeyEntry.mk 14 14 6).entryPos + (KeyEntry.mk 14 14 6).entrySize
        ≤ (BitcaskStore.mk
            [0, 0, 0, 5, 0, 0, 0, 1, 0, 0, 0, 1, 97, 98, 0, 0, 0,
             0, 0, 0, 6, 0, 0, 0, 1, 0, 0, 0, 1, 99, 100]
            [([97], ⟨14, 0, 5⟩), ([99], ⟨14, 14, 6⟩)] 28).file.length ∧
      ReadAt (BitcaskStore.mk
            [0, 0, 0, 5, 0, 0, 0, 1, 0, 0, 0, 1, 97, 98, 0, 0, 0,
             0, 0, 0, 6, 0, 0, 0, 1, 0, 0, 0, 1, 99, 100]
            [([97], ⟨14, 0, 5⟩), ([99], ⟨14, 14, 6⟩)] 28).file
          (make (KeyEntry.mk 14 14 6).entrySize) (KeyEntry.mk 14 14 6).entryPos
        = ((BitcaskStore.mk
            [0, 0, 0, 5, 0, 0, 0, 1, 0, 0, 0, 1, 97, 98, 0, 0, 0,
             0, 0, 0, 6, 0, 0, 0, 1, 0, 0, 0, 1, 99, 100]
            [([97], ⟨14, 0, 5⟩), ([99], ⟨14, 14, 6⟩)] 28).file.drop
              (KeyEntry.mk 14 14 6).entryPos).take (KeyEntry.mk 14 14 6).entrySize ∧
      (((BitcaskStore.mk
            [0, 0, 0, 5, 0, 0, 0, 1, 0, 0, 0, 1, 97, 98, 0, 0, 0,
             0, 0, 0, 6, 0, 0, 0, 1, 0, 0, 0, 1, 99, 100]
            [([97], ⟨14, 0, 5⟩), ([99], ⟨14, 14, 6⟩)] 28).file.drop
              (KeyEntry.mk 14 14 6).entryPos).take (KeyEntry.mk 14 14 6).entrySize).length
        = (KeyEntry.mk 14 14 6).entrySize :=
  C18_entries_inside_file (some [0, 0, 0, 5, 0, 0, 0, 1, 0, 0, 0, 1, 97, 98, 0, 0, 0])
    (BitcaskStore.mk [0, 0, 0, 5, 0, 0, 0, 1, 0, 0, 0, 1, 97, 98, 0, 0, 0] [([97], ⟨14, 0, 5⟩)] 14)
    (BitcaskStore.mk
      [0, 0, 0, 5, 0, 0, 0, 1, 0, 0, 0, 1, 97, 98, 0, 0, 0,
       0, 0, 0, 6, 0, 0, 0, 1, 0, 0, 0, 1, 99, 100]
      [([97], ⟨14, 0, 5⟩), ([99], ⟨14, 14, 6⟩)] 28)
    (by decide) [⟨6, 100, [99], [100]⟩] (by decide) (by decide) [99] ⟨14, 14, 6⟩ (by decide)

/-- C19 at its failing input. The header declares `keySize = 2^32 - 12` and
the body holds `2^32 - 12` bytes, all of them key.  `decodeKVNoHeader` returns
the body as the key and an empty value; `decodeKV` on the header followed by
the body panics, because `valueOffset`, computed in `uint32`, wraps to 0 and
the slice expression `data[keyOffset:valueOffset]` is out of range. -/
theorem C19_decodeKV_panics_where_decodeKVNoHeader_returns :
    decodeHeader [0, 0, 0, 0, 255, 255, 255, 244, 0, 0, 0, 0] = some (0, 4294967284, 0) ∧
    4294967284 ≤ (List.replicate 4294967284 (0 : Byte)).length ∧
    decodeKVNoHeader (List.replicate 4294967284 0) 4294967284
      = some (List.replicate 4294967284 0, []) ∧
    decodeKV ([0, 0, 0, 0, 255, 255, 255, 244, 0, 0, 0, 0] ++ List.replicate 4294967284 0)
      = none := by
  have hlen := length_replicate_zero 4294967284
  refine ⟨by decide, by rw [hlen], ?_, ?_⟩
  · have h := decodeKVNoHeader_append (List.replicate 4294967284 0) []
    rw [List.append_nil, hlen] at h
    exact h
  · rw [decodeKV_append [0, 0, 0, 0, 255, 255, 255, 244, 0, 0, 0, 0]
        (List.replicate 4294967284 0) 0 4294967284 0 rfl (by decide) (by rw [hlen]),
      if_neg (by decide)]

end Bitcask
